import Mathlib

/-!
# Cycript console (`Console.cpp`): a shallow embedding

The development follows `src/Console.cpp`:

* the virtual-cursor display engine (`CYDisplayOutput_`, `CYDisplayOutput`);
* the interrupt handler (`sigint`) over the process-wide `mode_`;
* the execution channel (`Run`) and the result printer (`Output`);
* the history sentinel folding (`History` constructor and destructor);
* the multi-line key handlers (`CYConsoleKeyReturn`, `CYConsoleKeyBack`,
  `CYConsoleKeyTab`, `CYConsoleKeyUp`, `CYConsoleKeyDown`);
* the batch branch of `Main` and its exit code.

A C `char` of the edit buffer, of the highlighted stream and of a history line
is a `Char`; a byte on the socket is a `UInt8`.  A NUL-terminated C string is the
list of its characters: running off the end of the list is reading the
terminating NUL.  `int` and `ssize_t` values are `Int`; `size_t` counters that
wrap are `Nat` with an explicit modulus.
-/

namespace Cycript

/-! ## Display engine -/

/-- The cursor type: `std::complex<int>`, real part the row, imaginary part the column. -/
structure CYCursor where
  real : Int
  imag : Int
deriving DecidableEq, Repr

/-- One write to the terminal: `putchar(c)`, `putp(clr_eos)` or `putp(clr_eol)`. -/
inductive TermOp where
  | putchar (c : Char)
  | clr_eos
  | clr_eol
deriving DecidableEq, Repr

/-- The display state touched by `CYDisplayOutput`: the global `current_` and the
writes made to the terminal so far (oldest first). -/
structure Display where
  current_ : CYCursor
  out : List TermOp
deriving DecidableEq, Repr

/-- The constants `CYIgnoreStart` and `CYIgnoreEnd` of `Highlight.hpp` (not part of
`src/`), taken as parameters.  They are `case` labels of one `switch` together with
the NUL and the newline, so the four characters are pairwise distinct. -/
structure IgnoreMarkers where
  CYIgnoreStart : Char
  CYIgnoreEnd : Char
  start_ne_end : CYIgnoreStart ≠ CYIgnoreEnd
  start_ne_nul : CYIgnoreStart ≠ '\x00'
  start_ne_nl : CYIgnoreStart ≠ '\n'
  end_ne_nul : CYIgnoreEnd ≠ '\x00'
  end_ne_nl : CYIgnoreEnd ≠ '\n'

/-- The readline convention for the two markers (bytes 1 and 2). -/
def readlineMarkers : IgnoreMarkers :=
  ⟨'\x01', '\x02', by decide, by decide, by decide, by decide, by decide⟩

/-- `CYDisplayOutput_(display, data)`: consume the bytes of an invisible range.
Stops in front of the NUL or of `CYIgnoreEnd` (neither is consumed); in paint
mode every skipped byte is written.  Returns the advanced `data` pointer. -/
def CYDisplayOutput_ (m : IgnoreMarkers) (display : Bool) :
    List Char → Display → List Char × Display
  | [], d => ([], d)
  | next :: rest, d =>
    if next = '\x00' ∨ next = m.CYIgnoreEnd then (next :: rest, d)
    else CYDisplayOutput_ m display rest
      (if display then { d with out := d.out ++ [TermOp.putchar next] } else d)

/-- The `for (;;)` loop of `CYDisplayOutput`, over the loop variables `data`,
`offset` and `point` and the global display state. -/
def CYDisplayOutput.loop (m : IgnoreMarkers) (display : Bool) (width : Int)
    (data : List Char) (offset : Int) (point : CYCursor) (d : Display) :
    CYCursor × Display :=
  -- if (offset-- == 0) point = current_;
  let point := if offset = 0 then d.current_ else point
  let offset := offset - 1
  match data with
  | [] => (point, d)
  | next :: data =>
    if next = '\x00' then (point, d)
    else if next = m.CYIgnoreStart then
      -- CYDisplayOutput_(display, data); falls through to ++offset
      CYDisplayOutput.loop m display width (CYDisplayOutput_ m display data d).1
        (offset + 1) point (CYDisplayOutput_ m display data d).2
    else if next = m.CYIgnoreEnd then
      CYDisplayOutput.loop m display width data (offset + 1) point d
    else if next = '\n' then
      let d := { d with current_ := ⟨d.current_.real + 1, 4⟩ }
      let d := if display then
          { d with out := d.out ++ [TermOp.clr_eol, TermOp.putchar '\n',
              TermOp.putchar ' ', TermOp.putchar ' ', TermOp.putchar ' ',
              TermOp.putchar ' '] }
        else d
      CYDisplayOutput.loop m display width data offset point d
    else
      let d := if display then { d with out := d.out ++ [TermOp.putchar next] } else d
      let d := { d with current_ := ⟨d.current_.real, d.current_.imag + 1⟩ }
      if d.current_.imag ≠ width then
        CYDisplayOutput.loop m display width data offset point d
      else
        let d := { d with current_ := ⟨d.current_.real + 1, 0⟩ }
        let d := if display then { d with out := d.out ++ [TermOp.clr_eos] } else d
        CYDisplayOutput.loop m display width data offset point d
termination_by data.length
decreasing_by
  all_goals simp_wf
  have key : ∀ (l : List Char) (e : Display),
      (CYDisplayOutput_ m display l e).1.length ≤ l.length := by
    intro l
    induction l with
    | nil => intro _; simp [CYDisplayOutput_]
    | cons c t ih =>
      intro e
      unfold CYDisplayOutput_
      split
      · simp
      · exact Nat.le_succ_of_le (ih _)
  have h := key data d
  omega

/-- `CYDisplayOutput(display, width, data, offset)`: returns the position `point`
and the display state it leaves behind. -/
def CYDisplayOutput (m : IgnoreMarkers) (display : Bool) (width : Int)
    (data : List Char) (offset : Int) (d : Display) : CYCursor × Display :=
  CYDisplayOutput.loop m display width data offset d.current_ d

/-- The cursor step of one character that is neither NUL nor marker: the two
`case` bodies of the `switch` that move `current_`. -/
def advance (width : Int) (c : Char) (cur : CYCursor) : CYCursor :=
  if c = '\n' then ⟨cur.real + 1, 4⟩
  else if cur.imag + 1 ≠ width then ⟨cur.real, cur.imag + 1⟩
  else ⟨cur.real + 1, 0⟩

/-- The cursor after a run of such characters, from `cur`. -/
def cursorAfter (width : Int) : List Char → CYCursor → CYCursor
  | [], cur => cur
  | c :: rest, cur => cursorAfter width rest (advance width c cur)

/-- The scan behind `visibleBytes`; the flag tells whether the scan is inside an
invisible range. -/
def visibleBytes.go (m : IgnoreMarkers) : Bool → List Char → List Char
  | _, [] => []
  | false, c :: rest =>
    if c = '\x00' then []
    else if c = m.CYIgnoreStart then visibleBytes.go m true rest
    else if c = m.CYIgnoreEnd then visibleBytes.go m false rest
    else c :: visibleBytes.go m false rest
  | true, c :: rest =>
    if c = '\x00' then []
    else if c = m.CYIgnoreEnd then visibleBytes.go m false rest
    else visibleBytes.go m true rest

/-- The visible bytes of a highlighted stream, in the words of the specification:
the bytes in front of the terminating NUL that lie outside every range opened by
invisible-start and closed by invisible-end, and that are no marker themselves. -/
def visibleBytes (m : IgnoreMarkers) (s : List Char) : List Char :=
  visibleBytes.go m false s

/-! ## Cancellation controller -/

/-- The process-wide `mode_` enumeration. -/
inductive Mode where
  | Working
  | Parsing
  | Running
  | Sending
  | Waiting
deriving DecidableEq, Repr

/-- What one run of the handler does besides returning: nothing,
`longjmp(ctrlc_, 1)`, or `CYCancel()`. -/
inductive SigintAction where
  | nothing
  | longjmp_ctrlc_
  | CYCancel
deriving DecidableEq, Repr

/-- `sigint(int)`: a `switch` on `mode_`.  The handler holds no assignment to
`mode_`; the result is the mode it leaves and the action it took. -/
def sigint (mode_ : Mode) : Mode × SigintAction :=
  match mode_ with
  | Mode.Working => (mode_, SigintAction.nothing)
  | Mode.Parsing => (mode_, SigintAction.longjmp_ctrlc_)
  | Mode.Running => (mode_, SigintAction.CYCancel)
  | Mode.Sending => (mode_, SigintAction.nothing)
  | Mode.Waiting => (mode_, SigintAction.nothing)

/-! ## Execution channel -/

/-- A byte on the socket. -/
abbrev Byte := UInt8

/-- Byte order of the `uint32_t` object representation (the native order of the
communicating pair). -/
inductive Endian where
  | little
  | big
deriving DecidableEq, Repr

/-- The four bytes of a `uint32_t` holding `n` (taken modulo `2^32`). -/
def u32Bytes (e : Endian) (n : Nat) : List Byte :=
  let b0 : Byte := UInt8.ofNat (n % 256)
  let b1 : Byte := UInt8.ofNat (n / 256 % 256)
  let b2 : Byte := UInt8.ofNat (n / 65536 % 256)
  let b3 : Byte := UInt8.ofNat (n / 16777216 % 256)
  match e with
  | Endian.little => [b0, b1, b2, b3]
  | Endian.big => [b3, b2, b1, b0]

/-- The `uint32_t` whose object representation is the given bytes (four of them). -/
def u32OfBytes (e : Endian) (bs : List Byte) : Nat :=
  match e with
  | Endian.little => bs.foldr (fun b acc => b.toNat + 256 * acc) 0
  | Endian.big => bs.foldl (fun acc b => 256 * acc + b.toNat) 0

/-- The value of `_not(uint32_t)`: all 32 bits set. -/
def not_uint32_t : Nat := 4294967295

/-- `CYUTF8String`: a `data` pointer (`none` is `NULL`; otherwise the bytes in front
of the terminating NUL) and a `size`. -/
structure CYUTF8String where
  data : Option (List Byte)
  size : Nat
deriving DecidableEq, Repr

/-- The connected socket `client`: the bytes written to it so far and the bytes the
peer has still to deliver. -/
structure Socket where
  sent : List Byte
  pending : List Byte
deriving DecidableEq, Repr

/-- Modelled from the spec: `CYSendAll` (declared in `cycript.hpp`, defined outside
`src/`) writes the whole block to the socket. -/
def CYSendAll (client : Socket) (block : List Byte) : Option Socket :=
  some { client with sent := client.sent ++ block }

/-- Modelled from the spec: `CYRecvAll` (declared in `cycript.hpp`, defined outside
`src/`) reads exactly `size` bytes; a short read is a failure. -/
def CYRecvAll (client : Socket) (size : Nat) : Option (List Byte × Socket) :=
  if size ≤ client.pending.length then
    some (client.pending.take size, { client with pending := client.pending.drop size })
  else none

/-- What `Run` leaves behind: the returned string, the socket (when remote) and
`mode_`. -/
structure RunResult where
  json : CYUTF8String
  client : Option Socket
  mode_ : Mode
deriving DecidableEq, Repr

/-- `Run(pool, client, code)`.  `client = none` is `client == -1` (local evaluation
through the oracle `CYExecute`); `none` as result is a failed `_assert`.
`code.size` is a `size_t` and is stored into the `uint32_t size`. -/
def Run (e : Endian) (CYExecute : List Byte → Option (List Byte))
    (client : Option Socket) (code : List Byte) : Option RunResult :=
  match client with
  | none =>
    -- mode_ = Running; json = CYExecute(...); mode_ = Working;
    match CYExecute code with
    | none => some ⟨⟨none, 0⟩, none, Mode.Working⟩
    | some json => some ⟨⟨some json, json.length % 4294967296⟩, none, Mode.Working⟩
  | some client =>
    -- mode_ = Sending;
    let size : Nat := code.length % 4294967296
    match CYSendAll client (u32Bytes e size) with
    | none => none
    | some client =>
    match CYSendAll client code with
    | none => none
    | some client =>
    -- mode_ = Waiting;
    match CYRecvAll client 4 with
    | none => none
    | some (header, client) =>
    let size : Nat := u32OfBytes e header
    if size = not_uint32_t then
      some ⟨⟨none, size⟩, some client, Mode.Working⟩
    else
      match CYRecvAll client size with
      | none => none
      | some (temp, client) => some ⟨⟨some temp, size⟩, some client, Mode.Working⟩

/-- The escape-expanding loop of `Output` over the bytes `data[i..size)`; the end
of the list is the terminating NUL at `data[size]`.  Byte 92 is the backslash.  In
the `default` case the loop steps back onto the byte after the backslash, which is
not a backslash and is written by the next iteration. -/
def Output.expandLoop : List Byte → List Byte
  | [] => []
  | c :: rest =>
    if c ≠ 92 then c :: Output.expandLoop rest
    else
      match rest with
      | [] => []
      | x :: rest2 =>
        if x = 0 then []
        else if x = 92 then 92 :: Output.expandLoop rest2
        else if x = 39 then 39 :: Output.expandLoop rest2
        else if x = 34 then 34 :: Output.expandLoop rest2
        else if x = 98 then 8 :: Output.expandLoop rest2
        else if x = 102 then 12 :: Output.expandLoop rest2
        else if x = 110 then 10 :: Output.expandLoop rest2
        else if x = 114 then 13 :: Output.expandLoop rest2
        else if x = 116 then 9 :: Output.expandLoop rest2
        else if x = 118 then 11 :: Output.expandLoop rest2
        else 92 :: x :: Output.expandLoop rest2

/-- `Output(json, out, expand)`: the stream `out` (`none` is `NULL`) after the call.
`CYLexerHighlight` is the highlighter oracle: the bytes it writes for a text.
Byte 64 is `@`, 34 the double quote, 39 the single quote, 10 is `std::endl`. -/
def Output (CYLexerHighlight : List Byte → List Byte) (json : CYUTF8String)
    (out : Option (List Byte)) (expand : Bool) : Option (List Byte) :=
  match json.data, out with
  | none, _ => out
  | some _, none => none
  | some data, some stream =>
    let text := data.take json.size
    let d0 : Byte := data.getD 0 0
    let d1 : Byte := data.getD 1 0
    if !expand ||
        (d0 != 64 && d0 != 34 && d0 != 39) ||
        (d0 == 64 && d1 != 34 && d1 != 39) then
      some (stream ++ CYLexerHighlight text ++ [10])
    else
      some (stream ++ Output.expandLoop text ++ [10])

/-! ## History store -/

/-- The inner loop of the `History` constructor over one `history->line`: every
byte 1 in front of the terminating NUL becomes a newline. -/
def History.unfoldLine : List Char → List Char
  | [] => []
  | c :: rest =>
    if c = '\x00' then c :: rest
    else (if c = '\x01' then '\n' else c) :: History.unfoldLine rest

/-- The inner loop of the `History` destructor over one `history->line`: every
newline in front of the terminating NUL becomes byte 1. -/
def History.foldLine : List Char → List Char
  | [] => []
  | c :: rest =>
    if c = '\x00' then c :: rest
    else (if c = '\n' then '\x01' else c) :: History.foldLine rest

/-- The loop of the constructor `History(histfile)` over the entries that
`read_history` loaded, from position 0 with `next_history`. -/
def History.ctor (entries : List (List Char)) : List (List Char) :=
  entries.map History.unfoldLine

/-- The loop of the destructor `~History()` over the in-memory entries, in front of
`write_history` or `append_history`. -/
def History.dtor (entries : List (List Char)) : List (List Char) :=
  entries.map History.foldLine

/-! ## Input controller -/

/-- The line editor state the key handlers work on: `rl_line_buffer` (its length is
`rl_end`), `rl_point`, and `rl_done`, which `rl_newline` sets to hand the line to
the caller of `readline`. -/
structure Readline where
  rl_line_buffer : List Char
  rl_point : Nat
  rl_done : Bool
deriving DecidableEq, Repr

/-- The `rl_end` of the editor: the length of the buffer. -/
def Readline.rl_end (rl : Readline) : Nat := rl.rl_line_buffer.length

/-- Modelled from the spec: the editor operation insert (readline `rl_insert`, not
part of `src/`): `count` copies of `c` go in at the point, which moves behind them;
a count below 1 inserts nothing. -/
def rl_insert (count : Int) (c : Char) (rl : Readline) : Readline :=
  if count ≤ 0 then rl
  else
    { rl with
      rl_line_buffer := rl.rl_line_buffer.take rl.rl_point ++
        List.replicate count.toNat c ++ rl.rl_line_buffer.drop rl.rl_point
      rl_point := rl.rl_point + count.toNat }

/-- Modelled from the spec: the editor operation delete-range (readline `rl_rubout`,
not part of `src/`): removes the `count` characters in front of the point (all of
them when there are fewer, one when `count` is 0 or 1, none when the point is at
0); a negative count deletes forward. -/
def rl_rubout (count : Int) (rl : Readline) : Readline :=
  if count < 0 then
    { rl with
      rl_line_buffer := rl.rl_line_buffer.take rl.rl_point ++
        rl.rl_line_buffer.drop (rl.rl_point + (-count).toNat) }
  else if rl.rl_point = 0 then rl
  else
    let n : Nat := if count > 1 then min count.toNat rl.rl_point else 1
    { rl with
      rl_line_buffer := rl.rl_line_buffer.take (rl.rl_point - n) ++
        rl.rl_line_buffer.drop rl.rl_point
      rl_point := rl.rl_point - n }

/-- Modelled from the spec: submission (readline `rl_newline`, not part of `src/`):
the buffer is left as it is and handed to the caller. -/
def rl_newline (_count : Int) (rl : Readline) : Readline :=
  { rl with rl_done := true }

/-- `CYmemrchr(data, value, size)`: the last index below `size` holding `value`;
`none` is `NULL`. -/
def CYmemrchr (data : List Char) (value : Char) : Nat → Option Nat
  | 0 => none
  | size + 1 =>
    if data.get? size = some value then some size
    else CYmemrchr data value size

/-- The libc `memchr(data, value, size)`: the first index below `size` holding
`value`; `none` is `NULL`. -/
def memchr : List Char → Char → Nat → Option Nat
  | _, _, 0 => none
  | [], _, _ + 1 => none
  | c :: rest, value, size + 1 =>
    if c = value then some 0 else (memchr rest value size).map (· + 1)

/-- The value of `std::string::npos` (`size_t` of 64 bits). -/
def npos : Nat := 18446744073709551615

/-- The call `command.find(value, pos)` of `std::string`; `none` is `npos`. -/
def find (command : List Char) (value : Char) (pos : Nat) : Option Nat :=
  (memchr (command.drop pos) value (command.length - pos)).map (· + pos)

/-- The loop `for (size_t i(0); i != npos; i = command.find(newline, i + 1)) ++last;`
of `CYConsoleKeyReturn`, entered with the current `i` and `last`; returns the final
`last`. -/
def CYConsoleKeyReturn.last (command : List Char) (i : Nat) (last : Nat) : Nat :=
  let last := (last + 1) % 18446744073709551616
  match _hfind : find command '\n' (i + 1) with
  | none => last
  | some j => CYConsoleKeyReturn.last command j last
termination_by command.length - i
decreasing_by
  simp_wf
  have key : ∀ (l : List Char) (n k : Nat), memchr l '\n' n = some k → k < l.length := by
    intro l
    induction l with
    | nil => intro n k hk; cases n <;> simp [memchr] at hk
    | cons c t ih =>
      intro n k hk
      cases n with
      | zero => simp [memchr] at hk
      | succ n =>
        simp only [memchr] at hk
        split at hk
        · cases hk; simp
        · cases hm : memchr t '\n' n with
          | none => simp [hm] at hk
          | some k2 =>
            simp [hm] at hk
            have := ih n k2 hm
            simp
            omega
  simp only [find] at _hfind
  cases hm : memchr (List.drop (i + 1) command) '\n' (command.length - (i + 1)) with
  | none => simp [hm] at _hfind
  | some k =>
    simp [hm] at _hfind
    have := key _ _ _ hm
    simp at this
    omega

/-- One diagnostic of the parser: the line `location_.begin.line` it is reported
on (lines count from 1). -/
structure CYDriverError where
  line : Nat
deriving DecidableEq, Repr

/-- What the handlers read off a `CYDriver` after a parse: the value returned by
`driver.Parse()` (true on failure) and the list `driver.errors_`. -/
structure CYDriver where
  Parse : Bool
  errors_ : List CYDriverError
deriving DecidableEq, Repr

/-- The `while (space != rl_point && rl_line_buffer[space] == ' ') ++space;` loop
of `CYConsoleKeyReturn`, over the buffer from index `space` on; the end of the list
is the NUL at `rl_line_buffer[rl_end]`. -/
def CYConsoleKeyReturn.space (rl_point : Nat) : List Char → Nat → Nat
  | [], space => space
  | c :: rest, space =>
    if space ≠ rl_point ∧ c = ' ' then CYConsoleKeyReturn.space rl_point rest (space + 1)
    else space

/-- `CYConsoleKeyReturn(count, key)`, with the parser oracle `parse` standing for
`CYDriver driver(pool, stream); driver.Parse()` on the text of `stream`. -/
def CYConsoleKeyReturn (parse : List Char → CYDriver) (count : Int) (rl : Readline) :
    Readline :=
  if rl.rl_point ≠ rl.rl_end then
    if memchr rl.rl_line_buffer '\n' rl.rl_end = none then rl_newline count rl
    else
      -- before == NULL is replaced by rl_line_buffer, index 0
      let before : Nat := (CYmemrchr rl.rl_line_buffer '\n' rl.rl_point).getD 0
      let space : Nat :=
        CYConsoleKeyReturn.space rl.rl_point (rl.rl_line_buffer.drop (before + 1)) (before + 1)
      let adjust : Int := (space : Int) - 1 - (before : Int)
      let rl := if space = rl.rl_point ∧ adjust ≠ 0 then rl_rubout adjust rl else rl
      let rl := rl_insert count '\n' rl
      if adjust ≠ 0 then rl_insert adjust ' ' rl else rl
  else
    let done : Bool :=
      if rl.rl_line_buffer.head? = some '?' then true
      else
        let command := rl.rl_line_buffer ++ ['\n']
        let last := CYConsoleKeyReturn.last command 0 npos
        let driver := parse command
        if driver.Parse || !driver.errors_.isEmpty then
          match driver.errors_ with
          | [] => false
          | error :: _ => decide (error.line ≠ (last + 1) % 18446744073709551616)
        else true
    if done then rl_newline count rl else rl_insert count '\n' rl

/-- `CYConsoleKeyBack(count, key)` for a count that is not negative; the recursion
is the `while (count-- != 0)` loop. -/
def CYConsoleKeyBack : Nat → Readline → Readline
  | 0, rl => rl
  | count + 1, rl =>
    match CYmemrchr rl.rl_line_buffer '\n' rl.rl_point with
    | none => rl_rubout (count : Int) rl
    | some before =>
      let start : Nat := before + 1
      if start = rl.rl_point then CYConsoleKeyBack count (rl_rubout 1 rl)
      else if ((rl.rl_line_buffer.drop start).take (rl.rl_point - start)).all (· == ' ') then
        -- rl_rubout((rl_point - start) % 4 ?: 4, key)
        CYConsoleKeyBack count
          (rl_rubout (if (rl.rl_point - start) % 4 ≠ 0 then ((rl.rl_point - start) % 4 : Nat) else 4) rl)
      else CYConsoleKeyBack count (rl_rubout 1 rl)

/-- Typing a text: one self-insert (`rl_insert(1, c)`) per character. -/
def typeText (text : List Char) (rl : Readline) : Readline :=
  text.foldl (fun rl c => rl_insert 1 c rl) rl

/-- `CYConsoleKeyTab(count, key)`.  `rl_complete_internal` is the completion of the
editor, an oracle on the editor state; the flag of the result tells whether the
handler went to the label `complete`. -/
def CYConsoleKeyTab (rl_complete_internal : Readline → Readline) (rl : Readline) :
    Readline × Bool :=
  match CYmemrchr rl.rl_line_buffer '\n' rl.rl_point with
  | none => (rl_complete_internal rl, true)
  | some before =>
    let start : Nat := before + 1
    if ((rl.rl_line_buffer.drop start).take (rl.rl_point - start)).all (· == ' ') then
      -- rl_insert(4 - (rl_point - start) % 4, ' ')
      (rl_insert (4 - (((rl.rl_point - start) % 4 : Nat) : Int)) ' ' rl, false)
    else (rl_complete_internal rl, true)

/-- The history list of the editor: the entries, the position `where_history()`,
the line the editor saved when the user first left it, and the number of calls of
`rl_get_previous_history` and `rl_get_next_history` made so far. -/
structure HistoryState where
  the_history : List (List Char)
  history_offset : Nat
  saved_line : Option (List Char)
  retrievals : Nat
deriving DecidableEq, Repr

/-- The editor as the arrow-key handlers see it: buffer, point and history.  The
point is the C `int` `rl_point`. -/
structure Navigation where
  rl_line_buffer : List Char
  rl_point : Int
  history : HistoryState
deriving DecidableEq, Repr

/-- Modelled from the spec: retrieval of the prior history entry (readline
`rl_get_previous_history(1, key)`, not part of `src/`): the line being edited is
saved if none is, and when an earlier entry exists it replaces the buffer, with the
point at its end; the call returns 0. -/
def rl_get_previous_history (s : Navigation) : Navigation :=
  let saved : Option (List Char) :=
    match s.history.saved_line with
    | none => some s.rl_line_buffer
    | some line => some line
  match s.history.history_offset with
  | 0 =>
    { s with history := { s.history with
        saved_line := saved, retrievals := s.history.retrievals + 1 } }
  | k + 1 =>
    match s.history.the_history.get? k with
    | none =>
      { s with history := { s.history with
          saved_line := saved, retrievals := s.history.retrievals + 1 } }
    | some entry =>
      { rl_line_buffer := entry
        rl_point := (entry.length : Int)
        history := { s.history with
          history_offset := k, saved_line := saved,
          retrievals := s.history.retrievals + 1 } }

/-- Modelled from the spec: retrieval of the next history entry (readline
`rl_get_next_history(1, key)`, not part of `src/`): the position moves on unless it
is behind the last entry; the entry there replaces the buffer, and behind the last
entry the saved line comes back; the point goes to the end; the call returns 0. -/
def rl_get_next_history (s : Navigation) : Navigation :=
  let offset : Nat :=
    if s.history.history_offset < s.history.the_history.length then
      s.history.history_offset + 1
    else s.history.history_offset
  let entry : Option (List Char) :=
    if s.history.history_offset < s.history.the_history.length then
      s.history.the_history.get? offset
    else none
  match entry with
  | some entry =>
    { rl_line_buffer := entry
      rl_point := (entry.length : Int)
      history := { s.history with
        history_offset := offset, retrievals := s.history.retrievals + 1 } }
  | none =>
    match s.history.saved_line with
    | some line =>
      { rl_line_buffer := line
        rl_point := (line.length : Int)
        history := { s.history with
          history_offset := offset, saved_line := none,
          retrievals := s.history.retrievals + 1 } }
    | none =>
      { s with history := { s.history with
          history_offset := offset, retrievals := s.history.retrievals + 1 } }

/-- `CYConsoleKeyUp(count, key)` for a count that is not negative; the recursion is
the `while (count-- != 0)` loop.  A point outside the buffer stops the model (the C
code would search outside the buffer). -/
def CYConsoleKeyUp : Nat → Navigation → Navigation
  | 0, s => s
  | count + 1, s =>
    if s.rl_point < 0 ∨ (s.rl_line_buffer.length : Int) < s.rl_point then s
    else
      match CYmemrchr s.rl_line_buffer '\n' s.rl_point.toNat with
      | none => CYConsoleKeyUp count (rl_get_previous_history s)
      | some after =>
        -- before == NULL is replaced by rl_line_buffer - 1, index -1
        let before : Int :=
          match CYmemrchr s.rl_line_buffer '\n' after with
          | some b => (b : Int)
          | none => -1
        let offset : Int := s.rl_point - (after : Int)
        if offset > (after : Int) - before then
          CYConsoleKeyUp count { s with rl_point := (after : Int) }
        else
          CYConsoleKeyUp count { s with rl_point := before + offset }

/-- `CYConsoleKeyDown(count, key)` for a count that is not negative; the recursion
is the `while (count-- != 0)` loop.  A point outside the buffer stops the model (the
C code would search outside the buffer). -/
def CYConsoleKeyDown : Nat → Navigation → Navigation
  | 0, s => s
  | count + 1, s =>
    if s.rl_point < 0 ∨ (s.rl_line_buffer.length : Int) < s.rl_point then s
    else
      let point : Nat := s.rl_point.toNat
      match memchr (s.rl_line_buffer.drop point) '\n' (s.rl_line_buffer.length - point) with
      | none =>
        let where_ : Nat := s.history.history_offset
        let s := rl_get_next_history s
        let s :=
          if where_ ≠ s.history.history_offset then
            match memchr s.rl_line_buffer '\n' s.rl_line_buffer.length with
            | some first => { s with rl_point := (first : Int) - 1 }
            | none => s
          else s
        CYConsoleKeyDown count s
      | some k =>
        let after : Nat := point + k
        let before : Int :=
          match CYmemrchr s.rl_line_buffer '\n' point with
          | some b => (b : Int)
          | none => -1
        let next : Nat :=
          match memchr (s.rl_line_buffer.drop (after + 1)) '\n'
              (s.rl_line_buffer.length - after - 1) with
          | some j => after + 1 + j
          | none => s.rl_line_buffer.length
        let offset : Int := Int.ofNat point - before
        if offset > Int.ofNat next - Int.ofNat after then
          CYConsoleKeyDown count { s with rl_point := Int.ofNat next }
        else
          CYConsoleKeyDown count { s with rl_point := Int.ofNat after + offset }

/-! ## Batch mode -/

/-- The bytes of the text `throw ` (with its trailing blank). -/
def throwText : List Byte := [116, 104, 114, 111, 119, 32]

/-- Modelled from the spec: `CYStartsWith(haystack, needle)` (declared outside
`src/`): whether the text of `haystack` begins with `needle`; a string with null
data has no text. -/
def CYStartsWith (haystack : CYUTF8String) (needle : List Byte) : Bool :=
  match haystack.data with
  | none => false
  | some data => needle.isPrefixOf (data.take haystack.size)

/-- The batch branch of `Main` (a script or standard input that is no terminal,
`timing_` off), from `bool failed(driver.Parse())` to `return 0`.  `driver` is what
the parse of the script left, `script_` the code generated from `driver.script_`
(`none` when it is `NULL`).  The result is the value returned; `none` is a failed
`_assert` inside `Run`, which leaves `Main` as an exception. -/
def Main.batch (e : Endian) (CYExecute : List Byte → Option (List Byte))
    (client_ : Option Socket) (compile : Bool) (driver : CYDriver)
    (script_ : Option (List Byte)) : Option Int :=
  let failed : Bool := driver.Parse
  if failed || !driver.errors_.isEmpty then
    -- every diagnostic is printed to std::cerr; control falls to return 0
    some 0
  else
    match script_ with
    | none => some 0
    | some code =>
      if compile then some 0
      else
        match Run e CYExecute client_ code with
        | none => none
        | some r => if CYStartsWith r.json throwText then some 1 else some 0

/-! ## Sample oracles -/

/-- A stand-in parser for examples: accepts a text whose braces balance, and
otherwise fails with one diagnostic at the end of the input (the line behind the
last newline). -/
def braceParser (command : List Char) : CYDriver :=
  if command.count '\x7b' = command.count '\x7d' then ⟨false, []⟩
  else ⟨true, [⟨command.count '\n' + 1⟩]⟩

/-- A stand-in parser for examples: fails on every text with one diagnostic on
line 1. -/
def firstLineError (_command : List Char) : CYDriver :=
  ⟨true, [⟨1⟩]⟩

/-! ## Display engine: what `CYDisplayOutput` computes -/

theorem CYDisplayOutput__current (m : IgnoreMarkers) (display : Bool) (data : List Char) :
    ∀ d : Display, (CYDisplayOutput_ m display data d).2.current_ = d.current_ := by
  induction data with
  | nil => intro d; simp [CYDisplayOutput_]
  | cons c t ih =>
    intro d
    unfold CYDisplayOutput_
    split
    · rfl
    · rw [ih]; split <;> rfl

theorem CYDisplayOutput__length (m : IgnoreMarkers) (display : Bool) (data : List Char) :
    ∀ d : Display, (CYDisplayOutput_ m display data d).1.length ≤ data.length := by
  induction data with
  | nil => intro d; simp [CYDisplayOutput_]
  | cons c t ih =>
    intro d
    unfold CYDisplayOutput_
    split
    · simp
    · exact Nat.le_succ_of_le (ih _)

theorem CYDisplayOutput__measure (m : IgnoreMarkers) (data : List Char) :
    ∀ d : Display, (CYDisplayOutput_ m false data d).2 = d := by
  induction data with
  | nil => intro d; simp [CYDisplayOutput_]
  | cons a l ihl =>
    intro d
    unfold CYDisplayOutput_
    split
    · rfl
    · simpa using ihl d

theorem visibleBytes_go_skip (m : IgnoreMarkers) (display : Bool) (data : List Char) :
    ∀ d : Display, visibleBytes.go m false (CYDisplayOutput_ m display data d).1
      = visibleBytes.go m true data := by
  induction data with
  | nil => intro d; simp [CYDisplayOutput_, visibleBytes.go]
  | cons c t ih =>
    intro d
    unfold CYDisplayOutput_
    by_cases h0 : c = '\x00'
    · simp [h0, visibleBytes.go]
    · by_cases he : c = m.CYIgnoreEnd
      · have h2 : ¬ m.CYIgnoreEnd = m.CYIgnoreStart := fun h => m.start_ne_end h.symm
        simp [he, visibleBytes.go, m.end_ne_nul, h2]
      · simp [h0, he, visibleBytes.go, ih]

theorem visibleBytes_cons_visible (m : IgnoreMarkers) (c : Char) (t : List Char)
    (h0 : c ≠ '\x00') (hs : c ≠ m.CYIgnoreStart) (he : c ≠ m.CYIgnoreEnd) :
    visibleBytes m (c :: t) = c :: visibleBytes m t := by
  simp [visibleBytes, visibleBytes.go, h0, hs, he]

theorem ite_offset_zero {α : Type} (offset : Int) (a b : α) :
    (if offset = 0 then a else b) = if 0 ≤ offset ∧ offset ≤ 0 then a else b := by
  by_cases h : offset = 0
  · simp [h]
  · have : ¬ (0 ≤ offset ∧ offset ≤ 0) := by omega
    simp [h, this]

theorem ite_offset_marker {α : Type} (offset : Int) (V : Nat) (x a b : α) :
    (if 0 ≤ offset ∧ offset ≤ (V : Int) then x else (if offset = 0 then a else b))
      = if 0 ≤ offset ∧ offset ≤ (V : Int) then x else b := by
  by_cases h : 0 ≤ offset ∧ offset ≤ (V : Int)
  · simp [h]
  · have : offset ≠ 0 := by omega
    simp [h, this]

theorem point_step (width : Int) (offset : Int) (c : Char) (vis : List Char)
    (cur point : CYCursor) :
    (if 0 ≤ offset - 1 ∧ offset - 1 ≤ (vis.length : Int)
      then cursorAfter width (vis.take (offset - 1).toNat) (advance width c cur)
      else (if offset = 0 then cur else point))
    = if 0 ≤ offset ∧ offset ≤ ((c :: vis).length : Int)
      then cursorAfter width ((c :: vis).take offset.toNat) cur
      else point := by
  rcases lt_trichotomy offset 0 with h | h | h
  · have h1 : ¬ (0 ≤ offset - 1 ∧ offset - 1 ≤ (vis.length : Int)) := by omega
    have h2 : ¬ (0 ≤ offset ∧ offset ≤ ((c :: vis).length : Int)) := by omega
    have h3 : offset ≠ 0 := by omega
    simp only [h1, h2, h3, if_false]
  · subst h
    have h2 : (0 : Int) ≤ (vis.length : Int) + 1 := by omega
    simp [cursorAfter, h2]
  · obtain ⟨k, rfl⟩ : ∃ k : Nat, offset = (k : Int) + 1 := ⟨(offset - 1).toNat, by omega⟩
    have e1 : ((k : Int) + 1 - 1).toNat = k := by omega
    have e2 : ((k : Int) + 1).toNat = k + 1 := by omega
    rw [e1, e2]
    simp only [List.take_succ_cons, cursorAfter, List.length_cons]
    by_cases hk : k ≤ vis.length
    · have h1 : (0 ≤ (k : Int) + 1 - 1 ∧ (k : Int) + 1 - 1 ≤ (vis.length : Int)) := by omega
      have h2 : (0 ≤ (k : Int) + 1 ∧ (k : Int) + 1 ≤ ((vis.length + 1 : Nat) : Int)) := by omega
      simp only [h1, h2, and_self, if_true]
    · have h1 : ¬ (0 ≤ (k : Int) + 1 - 1 ∧ (k : Int) + 1 - 1 ≤ (vis.length : Int)) := by omega
      have h2 : ¬ (0 ≤ (k : Int) + 1 ∧ (k : Int) + 1 ≤ ((vis.length + 1 : Nat) : Int)) := by omega
      have h3 : (k : Int) + 1 ≠ 0 := by omega
      simp only [h1, h2, h3, if_false]

/-- The loop in closed form: the cursor it leaves is the cursor after the visible
bytes, and the position it returns is the cursor after the first `offset` of them
(the incoming `point` when `offset` is out of range). -/
theorem loop_closed_form (m : IgnoreMarkers) (display : Bool) (width : Int) (n : Nat) :
    ∀ (data : List Char), data.length ≤ n → ∀ (offset : Int) (point : CYCursor) (d : Display),
      (CYDisplayOutput.loop m display width data offset point d).2.current_
        = cursorAfter width (visibleBytes m data) d.current_ ∧
      (CYDisplayOutput.loop m display width data offset point d).1
        = if 0 ≤ offset ∧ offset ≤ ((visibleBytes m data).length : Int)
          then cursorAfter width ((visibleBytes m data).take offset.toNat) d.current_
          else point := by
  induction n with
  | zero =>
    intro data hlen offset point d
    have : data = [] := List.length_eq_zero.mp (Nat.le_zero.mp hlen)
    subst this
    rw [CYDisplayOutput.loop]
    simp [visibleBytes, visibleBytes.go, cursorAfter]
    exact ite_offset_zero _ _ _
  | succ n ih =>
    intro data hlen offset point d
    cases data with
    | nil =>
      rw [CYDisplayOutput.loop]
      simp [visibleBytes, visibleBytes.go, cursorAfter]
      exact ite_offset_zero _ _ _
    | cons c t =>
      have ht : t.length ≤ n := by simpa using hlen
      rw [CYDisplayOutput.loop]
      by_cases h0 : c = '\x00'
      · simp [h0, visibleBytes, visibleBytes.go, cursorAfter]
        exact ite_offset_zero _ _ _
      · by_cases hs : c = m.CYIgnoreStart
        · have hl := CYDisplayOutput__length m display t d
          have := ih (CYDisplayOutput_ m display t d).1 (by omega) (offset - 1 + 1)
            (if offset = 0 then d.current_ else point) (CYDisplayOutput_ m display t d).2
          simp only [h0, hs, if_true, if_false, m.start_ne_nul]
          rw [this.1, this.2]
          simp only [visibleBytes, visibleBytes_go_skip, CYDisplayOutput__current]
          simp only [visibleBytes.go, m.start_ne_nul, if_true, if_false]
          have e : offset - 1 + 1 = offset := by omega
          rw [e]
          exact ⟨trivial, ite_offset_marker _ _ _ _ _⟩
        · by_cases he : c = m.CYIgnoreEnd
          · have := ih t ht (offset - 1 + 1) (if offset = 0 then d.current_ else point) d
            have h2 : ¬ m.CYIgnoreEnd = m.CYIgnoreStart := fun h => m.start_ne_end h.symm
            simp only [he, if_true, if_false, m.end_ne_nul, h2]
            rw [this.1, this.2]
            simp only [visibleBytes, visibleBytes.go, m.end_ne_nul, h2, if_true, if_false]
            have e : offset - 1 + 1 = offset := by omega
            rw [e]
            exact ⟨trivial, ite_offset_marker _ _ _ _ _⟩
          · simp only [h0, hs, he, if_false]
            rw [visibleBytes_cons_visible m c t h0 hs he]
            by_cases hn : c = '\n'
            · simp only [hn, if_true]
              rw [(ih t ht _ _ _).1, (ih t ht _ _ _).2]
              rw [← point_step width offset '\n' (visibleBytes m t) d.current_ point]
              cases display <;> simp [cursorAfter, advance]
            · simp only [hn, if_false]
              by_cases hw : d.current_.imag + 1 = width
              · cases display <;>
                · simp only [hw, if_true, if_false, ne_eq, not_true_eq_false, Bool.false_eq_true]
                  rw [(ih t ht _ _ _).1, (ih t ht _ _ _).2]
                  rw [← point_step width offset c (visibleBytes m t) d.current_ point]
                  simp [cursorAfter, advance, hn, hw]
              · cases display <;>
                · simp only [hw, if_true, if_false, ne_eq, not_false_eq_true, Bool.false_eq_true]
                  rw [(ih t ht _ _ _).1, (ih t ht _ _ _).2]
                  rw [← point_step width offset c (visibleBytes m t) d.current_ point]
                  simp [cursorAfter, advance, hn, hw]

/-- In measure-only mode the loop writes nothing. -/
theorem loop_measure_out (m : IgnoreMarkers) (width : Int) (n : Nat) :
    ∀ (data : List Char), data.length ≤ n → ∀ (offset : Int) (point : CYCursor) (d : Display),
      (CYDisplayOutput.loop m false width data offset point d).2.out = d.out := by
  induction n with
  | zero =>
    intro data hlen offset point d
    have : data = [] := List.length_eq_zero.mp (Nat.le_zero.mp hlen)
    subst this
    rw [CYDisplayOutput.loop]
  | succ n ih =>
    intro data hlen offset point d
    cases data with
    | nil => rw [CYDisplayOutput.loop]
    | cons c t =>
      have ht : t.length ≤ n := by simpa using hlen
      rw [CYDisplayOutput.loop]
      by_cases h0 : c = '\x00'
      · simp [h0]
      · by_cases hs : c = m.CYIgnoreStart
        · have hl := CYDisplayOutput__length m false t d
          simp only [h0, hs, if_true, if_false, m.start_ne_nul]
          rw [ih _ (by omega), CYDisplayOutput__measure]
        · by_cases he : c = m.CYIgnoreEnd
          · have h2 : ¬ m.CYIgnoreEnd = m.CYIgnoreStart := fun h => m.start_ne_end h.symm
            simp only [he, if_true, if_false, m.end_ne_nul, h2]
            rw [ih t ht]
          · simp only [h0, hs, he, if_false]
            by_cases hn : c = '\n'
            · simp only [hn, if_true]
              rw [ih t ht]
              simp
            · simp only [hn, if_false]
              by_cases hw : d.current_.imag + 1 = width
              · simp only [hw, if_true, if_false, ne_eq, not_true_eq_false, Bool.false_eq_true]
                rw [ih t ht]
              · simp only [hw, if_true, if_false, ne_eq, not_false_eq_true, Bool.false_eq_true]
                rw [ih t ht]

theorem CYDisplayOutput_current (m : IgnoreMarkers) (display : Bool) (width : Int)
    (data : List Char) (offset : Int) (d : Display) :
    (CYDisplayOutput m display width data offset d).2.current_
      = cursorAfter width (visibleBytes m data) d.current_ :=
  (loop_closed_form m display width data.length data (Nat.le_refl _) offset d.current_ d).1

theorem CYDisplayOutput_point (m : IgnoreMarkers) (display : Bool) (width : Int)
    (data : List Char) (offset : Int) (d : Display) :
    (CYDisplayOutput m display width data offset d).1
      = if 0 ≤ offset ∧ offset ≤ ((visibleBytes m data).length : Int)
        then cursorAfter width ((visibleBytes m data).take offset.toNat) d.current_
        else d.current_ :=
  (loop_closed_form m display width data.length data (Nat.le_refl _) offset d.current_ d).2

theorem visibleBytes_of_all_visible (m : IgnoreMarkers) (l : List Char)
    (h : ∀ c ∈ l, c ≠ '\x00' ∧ c ≠ m.CYIgnoreStart ∧ c ≠ m.CYIgnoreEnd) :
    visibleBytes m l = l := by
  induction l with
  | nil => simp [visibleBytes, visibleBytes.go]
  | cons c t ih =>
    have hc := h c (List.mem_cons_self _ _)
    rw [visibleBytes_cons_visible m c t hc.1 hc.2.1 hc.2.2,
      ih (fun x hx => h x (List.mem_cons_of_mem _ hx))]

theorem visibleBytes_go_mem (m : IgnoreMarkers) (l : List Char) :
    ∀ (b : Bool) (c : Char), c ∈ visibleBytes.go m b l →
      c ≠ '\x00' ∧ c ≠ m.CYIgnoreStart ∧ c ≠ m.CYIgnoreEnd := by
  induction l with
  | nil => intro b c hc; cases b <;> simp [visibleBytes.go] at hc
  | cons a t ih =>
    intro b c hc
    cases b with
    | false =>
      simp only [visibleBytes.go] at hc
      split at hc
      · simp at hc
      · split at hc
        · exact ih _ _ hc
        · split at hc
          · exact ih _ _ hc
          · rcases List.mem_cons.mp hc with h | h
            · subst h; exact ⟨by assumption, by assumption, by assumption⟩
            · exact ih _ _ h
    | true =>
      simp only [visibleBytes.go] at hc
      split at hc
      · simp at hc
      · split at hc
        · exact ih _ _ hc
        · exact ih _ _ hc

theorem visibleBytes_take_idem (m : IgnoreMarkers) (s : List Char) (k : Nat) :
    visibleBytes m ((visibleBytes m s).take k) = (visibleBytes m s).take k :=
  visibleBytes_of_all_visible m _
    (fun c hc => visibleBytes_go_mem m s false c (List.mem_of_mem_take hc))

theorem cursorAfter_plain (w : Int) (hw : 1 ≤ w) (text : List Char)
    (hnl : ∀ c ∈ text, c ≠ '\n') :
    ∀ (r c : Int), 0 ≤ c → c < w →
      cursorAfter w text ⟨r, c⟩ = ⟨r + (c + text.length) / w, (c + text.length) % w⟩ := by
  induction text with
  | nil =>
    intro r c h0 h1
    simp [cursorAfter, Int.ediv_eq_zero_of_lt h0 h1, Int.emod_eq_of_lt h0 h1]
  | cons a t ih =>
    intro r c h0 h1
    have ha := hnl a (List.mem_cons_self _ _)
    have iht := ih (fun x hx => hnl x (List.mem_cons_of_mem _ hx))
    simp only [cursorAfter, advance, ha, if_false, List.length_cons]
    by_cases hwrap : c + 1 = w
    · simp only [hwrap, ne_eq, not_true_eq_false, if_false]
      rw [iht (r + 1) 0 (le_refl _) (by omega)]
      have e : c + ((t.length + 1 : Nat) : Int) = (t.length : Int) + 1 * w := by
        push_cast; omega
      have hw0 : w ≠ 0 := by omega
      rw [e, Int.add_mul_ediv_right _ _ hw0, Int.add_mul_emod_self]
      simp
      omega
    · simp only [hwrap, ne_eq, not_false_eq_true, if_true]
      rw [iht r (c + 1) (by omega) (by omega)]
      have e : c + 1 + (t.length : Int) = c + ((t.length + 1 : Nat) : Int) := by
        push_cast; omega
      rw [e]

/-- Claim C3 (measure/paint equivalence): from the same virtual cursor, width,
stream and offset, `CYDisplayOutput` returns the same position and leaves the same
`current_` with `display = false` as with `display = true`; the measure-only call
writes nothing to the terminal. -/
theorem CYDisplayOutput_measure_paint (m : IgnoreMarkers) (width : Int) (data : List Char)
    (offset : Int) (d : Display) :
    (CYDisplayOutput m false width data offset d).1
        = (CYDisplayOutput m true width data offset d).1 ∧
    (CYDisplayOutput m false width data offset d).2.current_
        = (CYDisplayOutput m true width data offset d).2.current_ ∧
    (CYDisplayOutput m false width data offset d).2.out = d.out := by
  refine ⟨?_, ?_, ?_⟩
  · rw [CYDisplayOutput_point, CYDisplayOutput_point]
  · rw [CYDisplayOutput_current, CYDisplayOutput_current]
  · exact loop_measure_out m width data.length data (Nat.le_refl _) offset d.current_ d

/-- Claim C4: for a stream `s` with `V` visible bytes and an offset `k ≤ V`, the
position `CYDisplayOutput` returns is the virtual cursor reached by running the
engine from the same start on the first `k` visible bytes only; and the cursor it
leaves is the one reached on the visible bytes alone, so invisible ranges and
markers neither move the cursor nor count toward `k`. -/
theorem CYDisplayOutput_offset_position (m : IgnoreMarkers) (display : Bool) (width : Int)
    (s : List Char) (d : Display) (k : Nat) (hk : k ≤ (visibleBytes m s).length) :
    (∀ (display2 : Bool) (offset2 : Int),
      (CYDisplayOutput m display width s k d).1
        = (CYDisplayOutput m display2 width ((visibleBytes m s).take k) offset2 d).2.current_) ∧
    (∀ (display2 : Bool) (offset2 : Int),
      (CYDisplayOutput m display width s k d).2.current_
        = (CYDisplayOutput m display2 width (visibleBytes m s) offset2 d).2.current_) := by
  constructor
  · intro display2 offset2
    rw [CYDisplayOutput_point, CYDisplayOutput_current, visibleBytes_take_idem]
    have : (0 : Int) ≤ (k : Int) ∧ (k : Int) ≤ ((visibleBytes m s).length : Int) := by omega
    simp [this]
  · intro display2 offset2
    rw [CYDisplayOutput_current, CYDisplayOutput_current]
    have := visibleBytes_take_idem m s (visibleBytes m s).length
    rw [List.take_length] at this
    rw [this]

/-- The offset theorem at a stream with an invisible range and a stray end marker,
offset 3. -/
theorem CYDisplayOutput_offset_position_witness :
    3 ≤ (visibleBytes readlineMarkers "ab\x01zz\x02c\x02d\ne".toList).length ∧
    (CYDisplayOutput readlineMarkers true 3 "ab\x01zz\x02c\x02d\ne".toList (3 : Nat)
        ⟨⟨0, 0⟩, []⟩).1
      = (CYDisplayOutput readlineMarkers false 3
          ((visibleBytes readlineMarkers "ab\x01zz\x02c\x02d\ne".toList).take 3) 0
          ⟨⟨0, 0⟩, []⟩).2.current_ :=
  ⟨by decide,
   (CYDisplayOutput_offset_position readlineMarkers true 3 "ab\x01zz\x02c\x02d\ne".toList
      ⟨⟨0, 0⟩, []⟩ 3 (by decide)).1 false 0⟩

/-- Claim C5: for a width `w ≥ 1` and a text of `N` bytes holding no newline, NUL or
marker, `CYDisplayOutput` started at row 0, column 0 leaves the virtual cursor at
row `N / w`, column `N % w`. -/
theorem CYDisplayOutput_row_column (m : IgnoreMarkers) (display : Bool) (w : Int)
    (hw : 1 ≤ w) (text : List Char)
    (htext : ∀ c ∈ text, c ≠ '\n' ∧ c ≠ '\x00' ∧ c ≠ m.CYIgnoreStart ∧ c ≠ m.CYIgnoreEnd)
    (offset : Int) (out : List TermOp) :
    (CYDisplayOutput m display w text offset ⟨⟨0, 0⟩, out⟩).2.current_
      = ⟨(text.length : Int) / w, (text.length : Int) % w⟩ := by
  rw [CYDisplayOutput_current,
    visibleBytes_of_all_visible m text (fun c hc => (htext c hc).2)]
  have := cursorAfter_plain w hw text (fun c hc => (htext c hc).1) 0 0 (le_refl _) (by omega)
  simpa using this

/-- The row/column theorem at width 3 and a text of 7 bytes. -/
theorem CYDisplayOutput_row_column_witness :
    (1 : Int) ≤ 3 ∧
    (CYDisplayOutput readlineMarkers true 3 "abcdefg".toList 0 ⟨⟨0, 0⟩, []⟩).2.current_
      = ⟨("abcdefg".toList.length : Int) / 3, ("abcdefg".toList.length : Int) % 3⟩ :=
  ⟨by decide,
   CYDisplayOutput_row_column readlineMarkers true 3 (by decide) "abcdefg".toList (by decide)
     0 []⟩

/-! ## Cancellation controller: the handler by mode -/

/-- Claim C9: `sigint` never changes the mode; it does nothing in `Sending`,
`Waiting` and `Working`; it performs the non-local jump in `Parsing` and in no other
mode, and requests evaluator cancellation in `Running` and in no other mode. -/
theorem sigint_action_by_mode :
    (∀ mode_ : Mode, (sigint mode_).1 = mode_) ∧
    (sigint Mode.Sending).2 = SigintAction.nothing ∧
    (sigint Mode.Waiting).2 = SigintAction.nothing ∧
    (sigint Mode.Working).2 = SigintAction.nothing ∧
    (∀ mode_ : Mode, (sigint mode_).2 = SigintAction.longjmp_ctrlc_ ↔ mode_ = Mode.Parsing) ∧
    (∀ mode_ : Mode, (sigint mode_).2 = SigintAction.CYCancel ↔ mode_ = Mode.Running) := by
  refine ⟨?_, rfl, rfl, rfl, ?_, ?_⟩ <;> intro mode_ <;> cases mode_ <;> simp [sigint]

/-! ## History store: the sentinel folding -/

theorem History_unfoldLine_foldLine (entry : List Char) (h1 : '\x01' ∉ entry) :
    History.unfoldLine (History.foldLine entry) = entry := by
  induction entry with
  | nil => simp [History.foldLine, History.unfoldLine]
  | cons c t ih =>
    have hc : c ≠ '\x01' := fun h => h1 (by simp [h])
    have ht : '\x01' ∉ t := fun h => h1 (List.mem_cons_of_mem _ h)
    by_cases h0 : c = '\x00'
    · subst h0
      simp [History.foldLine, History.unfoldLine]
    · by_cases hn : c = '\n'
      · subst hn
        simp [History.foldLine, History.unfoldLine, ih ht]
      · simp [History.foldLine, History.unfoldLine, h0, hn, hc, ih ht]

/-- Claim C6 as stated fails: the NUL-free entry `a`, byte 1, `b` comes back from
the destructor's folding and the constructor's unfolding as `a`, newline, `b`. -/
theorem History_sentinel_not_restored :
    '\x00' ∉ ['a', '\x01', 'b'] ∧
    History.ctor (History.dtor [['a', '\x01', 'b']]) = [['a', '\n', 'b']] ∧
    History.ctor (History.dtor [['a', '\x01', 'b']]) ≠ [['a', '\x01', 'b']] := by
  decide

/-- Claim C6, amended: every history entry that is NUL-free and holds no byte 1
(with any number of embedded newlines) is equal to the original after the
destructor's folding followed by the constructor's unfolding. -/
theorem History_round_trip (entries : List (List Char)) (i : Nat) (entry : List Char)
    (hi : entries.get? i = some entry) (_h0 : '\x00' ∉ entry) (h1 : '\x01' ∉ entry) :
    (History.ctor (History.dtor entries)).get? i = some entry := by
  simp only [History.ctor, History.dtor, List.get?_eq_getElem?, List.map_map,
    List.getElem?_map] at *
  rw [hi]
  simp [History_unfoldLine_foldLine entry h1]

/-- The round trip at a history whose first entry has two embedded newlines. -/
theorem History_round_trip_witness :
    [['x', '\n', 'y', '\n', 'z'], ['w']].get? 0 = some ['x', '\n', 'y', '\n', 'z'] ∧
    (History.ctor (History.dtor [['x', '\n', 'y', '\n', 'z'], ['w']])).get? 0
      = some ['x', '\n', 'y', '\n', 'z'] :=
  ⟨rfl, History_round_trip [['x', '\n', 'y', '\n', 'z'], ['w']] 0 ['x', '\n', 'y', '\n', 'z']
    rfl (by decide) (by decide)⟩

/-! ## Execution channel: frames -/

theorem u32OfBytes_u32Bytes (e : Endian) (n : Nat) :
    u32OfBytes e (u32Bytes e n) = n % 4294967296 := by
  cases e <;>
  · simp only [u32OfBytes, u32Bytes, List.foldr, List.foldl, UInt8.ofNat, UInt8.toNat, Fin.ofNat,
      BitVec.toNat_ofNat]
    omega

theorem u32Bytes_length (e : Endian) (n : Nat) : (u32Bytes e n).length = 4 := by
  cases e <;> rfl

theorem CYRecvAll_append (sent : List Byte) (block rest : List Byte) :
    CYRecvAll ⟨sent, block ++ rest⟩ block.length = some (block, ⟨sent, rest⟩) := by
  simp [CYRecvAll]

/-- The remote branch of `Run` when the peer answers with the length prefix `L`. -/
theorem Run_remote_eq (e : Endian) (CYExecute : List Byte → Option (List Byte))
    (sent code : List Byte) (L : Nat) (hL : L < 4294967296) (tail : List Byte) :
    Run e CYExecute (some ⟨sent, u32Bytes e L ++ tail⟩) code =
      if L = not_uint32_t then
        some ⟨⟨none, L⟩, some ⟨sent ++ u32Bytes e (code.length % 4294967296) ++ code, tail⟩,
          Mode.Working⟩
      else
        match CYRecvAll ⟨sent ++ u32Bytes e (code.length % 4294967296) ++ code, tail⟩ L with
        | none => none
        | some (temp, client) => some ⟨⟨some temp, L⟩, some client, Mode.Working⟩ := by
  have h4 := CYRecvAll_append (sent ++ u32Bytes e (code.length % 4294967296) ++ code)
    (u32Bytes e L) tail
  rw [u32Bytes_length] at h4
  simp only [Run, CYSendAll, h4, u32OfBytes_u32Bytes, Nat.mod_eq_of_lt hL]

/-- Claim C7: on a remote target a response length prefix of `0xFFFFFFFF` gives a
result with null data, reads none of the bytes behind the prefix, and `Output`
leaves every stream as it was; a response length of 0 gives a non-null empty
result, for which `Output` writes the highlighter's rendering of the empty text
and a line end; for every other length the result is exactly the payload bytes
received. -/
theorem Run_response_frame (e : Endian) (CYExecute : List Byte → Option (List Byte))
    (CYLexerHighlight : List Byte → List Byte)
    (sent code payload rest : List Byte) (expand : Bool)
    (hL : payload.length < not_uint32_t) :
    (Run e CYExecute (some ⟨sent, u32Bytes e not_uint32_t ++ rest⟩) code
        = some ⟨⟨none, not_uint32_t⟩,
            some ⟨sent ++ u32Bytes e (code.length % 4294967296) ++ code, rest⟩, Mode.Working⟩ ∧
      ∀ out : Option (List Byte),
        Output CYLexerHighlight ⟨none, not_uint32_t⟩ out expand = out) ∧
    (Run e CYExecute (some ⟨sent, u32Bytes e 0 ++ rest⟩) code
        = some ⟨⟨some [], 0⟩,
            some ⟨sent ++ u32Bytes e (code.length % 4294967296) ++ code, rest⟩, Mode.Working⟩ ∧
      ∀ stream : List Byte,
        Output CYLexerHighlight ⟨some [], 0⟩ (some stream) expand
          = some (stream ++ CYLexerHighlight [] ++ [10])) ∧
    Run e CYExecute (some ⟨sent, u32Bytes e payload.length ++ payload ++ rest⟩) code
        = some ⟨⟨some payload, payload.length⟩,
            some ⟨sent ++ u32Bytes e (code.length % 4294967296) ++ code, rest⟩, Mode.Working⟩ := by
  refine ⟨⟨?_, ?_⟩, ⟨?_, ?_⟩, ?_⟩
  · rw [Run_remote_eq e CYExecute sent code not_uint32_t (by decide)]
    simp
  · intro out
    simp [Output]
  · rw [Run_remote_eq e CYExecute sent code 0 (by decide)]
    simp [not_uint32_t, CYRecvAll]
  · intro stream
    cases expand <;> simp [Output]
  · have hlt : payload.length < 4294967296 := by
      have : not_uint32_t = 4294967295 := rfl
      omega
    rw [List.append_assoc, Run_remote_eq e CYExecute sent code payload.length hlt]
    have hne : payload.length ≠ not_uint32_t := by omega
    simp only [hne, if_false]
    rw [CYRecvAll_append]

/-- The response theorem at a two-byte payload followed by one further byte. -/
theorem Run_response_frame_witness :
    ([7, 8] : List Byte).length < not_uint32_t ∧
    Run Endian.little (fun _ => none)
        (some ⟨[], u32Bytes Endian.little ([7, 8] : List Byte).length ++ [7, 8] ++ [9]⟩) [1]
      = some ⟨⟨some [7, 8], ([7, 8] : List Byte).length⟩,
          some ⟨[] ++ u32Bytes Endian.little (([1] : List Byte).length % 4294967296) ++ [1], [9]⟩,
          Mode.Working⟩ :=
  ⟨by decide,
   (Run_response_frame Endian.little (fun _ => none) id [] [1] [7, 8] [9] false (by decide)).2.2⟩

/-- Whenever the remote branch of `Run` returns, the bytes it wrote are the four
bytes of `code.size` reduced modulo `2^32` followed by all the bytes of `code`. -/
theorem Run_sends (e : Endian) (CYExecute : List Byte → Option (List Byte))
    (sent code pending : List Byte) (r : RunResult)
    (h : Run e CYExecute (some ⟨sent, pending⟩) code = some r) :
    ∃ client, r.client = some client ∧
      client.sent = sent ++ u32Bytes e (code.length % 4294967296) ++ code := by
  simp only [Run, CYSendAll] at h
  split at h
  · cases h
  · rename_i header client hrecv
    have hs : client.sent = sent ++ u32Bytes e (code.length % 4294967296) ++ code := by
      simp only [CYRecvAll] at hrecv
      split at hrecv
      · cases hrecv; rfl
      · cases hrecv
    split at h
    · cases h; exact ⟨client, rfl, hs⟩
    · split at h
      · cases h
      · rename_i temp client2 hrecv2
        cases h
        refine ⟨client2, rfl, ?_⟩
        simp only [CYRecvAll] at hrecv2
        split at hrecv2
        · cases hrecv2; exact hs
        · cases hrecv2

theorem Run_oversize (e : Endian) (CYExecute : List Byte → Option (List Byte))
    (code : List Byte) (h : code.length = 4294967296) :
    Run e CYExecute (some ⟨[], u32Bytes e 0⟩) code
      = some ⟨⟨some [], 0⟩, some ⟨u32Bytes e 0 ++ code, []⟩, Mode.Working⟩ := by
  have := Run_remote_eq e CYExecute [] code 0 (by decide) []
  rw [List.append_nil] at this
  rw [this, h]
  simp [not_uint32_t, CYRecvAll]

/-- Claim C8 fails on the code: for a source text of `2^32` bytes `Run` writes a
length field of value 0 and then all `2^32` bytes of the source text, so the bytes
written are not one frame. -/
theorem Run_request_length_truncated (e : Endian) :
    (List.replicate 4294967296 (0 : Byte)).length = 4294967296 ∧
    Run e (fun _ => none) (some ⟨[], u32Bytes e 0⟩) (List.replicate 4294967296 0)
      = some ⟨⟨some [], 0⟩,
          some ⟨u32Bytes e 0 ++ List.replicate 4294967296 0, []⟩, Mode.Working⟩ ∧
    u32OfBytes e (u32Bytes e 0) = 0 :=
  ⟨List.length_replicate _ _,
   Run_oversize e _ _ (List.length_replicate _ _),
   u32OfBytes_u32Bytes e 0⟩

/-! ## Input controller: Enter at the end of the buffer -/

theorem memchr_full (l : List Char) (c : Char) :
    (memchr l c l.length = none → l.count c = 0) ∧
    (∀ k, memchr l c l.length = some k →
      k < l.length ∧ l.count c = 1 + (l.drop (k + 1)).count c) := by
  induction l with
  | nil => simp [memchr]
  | cons a t ih =>
    simp only [List.length_cons, memchr]
    by_cases ha : a = c
    · subst ha
      simp
      omega
    · simp only [ha, if_false]
      have hca : ¬ (a == c) = true := by simpa using ha
      constructor
      · intro h
        cases hm : memchr t c t.length with
        | none => simp [List.count_cons, hca, ih.1 hm]
        | some k => simp [hm] at h
      · intro k h
        cases hm : memchr t c t.length with
        | none => simp [hm] at h
        | some k2 =>
          simp [hm] at h
          subst h
          have := ih.2 k2 hm
          simp [List.count_cons, hca]
          omega

theorem find_none (command : List Char) (c : Char) (pos : Nat)
    (h : find command c pos = none) : (command.drop pos).count c = 0 := by
  simp only [find] at h
  have hf := memchr_full (command.drop pos) c
  rw [List.length_drop] at hf
  cases hm : memchr (command.drop pos) c (command.length - pos) with
  | none => exact hf.1 hm
  | some k => simp [hm] at h

theorem find_some (command : List Char) (c : Char) (pos j : Nat)
    (h : find command c pos = some j) :
    pos ≤ j ∧ j < command.length ∧
      (command.drop pos).count c = 1 + (command.drop (j + 1)).count c := by
  simp only [find] at h
  have hf := memchr_full (command.drop pos) c
  rw [List.length_drop] at hf
  cases hm : memchr (command.drop pos) c (command.length - pos) with
  | none => simp [hm] at h
  | some k =>
    simp [hm] at h
    subst h
    have := hf.2 k hm
    simp only [List.drop_drop] at this
    refine ⟨by omega, by omega, ?_⟩
    have e : pos + (k + 1) = k + pos + 1 := by omega
    rw [this.2, e]

/-- The counting loop in closed form: entered at index `i`, it adds one plus the
number of newlines behind index `i` to `last`, in `size_t` arithmetic. -/
theorem CYConsoleKeyReturn_last_eq (command : List Char) (n : Nat) :
    ∀ (i last : Nat), command.length - i ≤ n →
      CYConsoleKeyReturn.last command i last
        = (last + 1 + (command.drop (i + 1)).count '\n') % 18446744073709551616 := by
  induction n with
  | zero =>
    intro i last hi
    rw [CYConsoleKeyReturn.last]
    split
    · rename_i hf
      rw [find_none _ _ _ hf]
    · rename_i j hf
      have := find_some _ _ _ _ hf
      omega
  | succ n ih =>
    intro i last hi
    rw [CYConsoleKeyReturn.last]
    split
    · rename_i hf
      rw [find_none _ _ _ hf]
    · rename_i j hf
      have hj := find_some _ _ _ _ hf
      rw [ih j _ (by omega), hj.2.2]
      omega

/-- For a non-empty buffer that does not start with a newline, `last + 1` is the
number of the line behind the synthetic trailing newline. -/
theorem CYConsoleKeyReturn_last_command (buf : List Char) (hne : buf ≠ [])
    (hnl : buf.head? ≠ some '\n') (hlen : buf.length < 2147483648) :
    (CYConsoleKeyReturn.last (buf ++ ['\n']) 0 npos + 1) % 18446744073709551616
      = buf.count '\n' + 2 := by
  rw [CYConsoleKeyReturn_last_eq _ _ 0 npos (Nat.le_refl _)]
  cases buf with
  | nil => exact absurd rfl hne
  | cons a t =>
    have ha : ¬ (a == '\n') = true := by simpa using hnl
    have hc : (t ++ ['\n']).count '\n' = t.count '\n' + 1 := by simp
    have hle : t.count '\n' ≤ t.length := List.count_le_length _ _
    simp only [List.cons_append, List.drop_succ_cons, List.drop_zero, hc, List.count_cons, ha,
      if_false, npos]
    simp at hlen
    simp
    omega

/-- The decision of `CYConsoleKeyReturn` with the point at the end of a non-empty
buffer that starts with neither `?` nor a newline. -/
theorem CYConsoleKeyReturn_at_end (parse : List Char → CYDriver) (count : Int) (rl : Readline)
    (hpoint : rl.rl_point = rl.rl_line_buffer.length)
    (hne : rl.rl_line_buffer ≠ []) (hq : rl.rl_line_buffer.head? ≠ some '?')
    (hnl : rl.rl_line_buffer.head? ≠ some '\n') (hlen : rl.rl_line_buffer.length < 2147483648) :
    CYConsoleKeyReturn parse count rl =
      if (if (parse (rl.rl_line_buffer ++ ['\n'])).Parse
            || !(parse (rl.rl_line_buffer ++ ['\n'])).errors_.isEmpty then
          (match (parse (rl.rl_line_buffer ++ ['\n'])).errors_ with
            | [] => false
            | error :: _ => decide (error.line ≠ rl.rl_line_buffer.count '\n' + 2))
          else true) = true
      then rl_newline count rl else rl_insert count '\n' rl := by
  have hl := CYConsoleKeyReturn_last_command rl.rl_line_buffer hne hnl hlen
  simp only [CYConsoleKeyReturn, Readline.rl_end, hpoint, ne_eq, not_true_eq_false, if_false, hq,
    hl]

theorem rl_insert_one_at_end (c : Char) (rl : Readline)
    (hpoint : rl.rl_point = rl.rl_line_buffer.length) :
    rl_insert 1 c rl
      = { rl with rl_line_buffer := rl.rl_line_buffer ++ [c], rl_point := rl.rl_point + 1 } := by
  simp [rl_insert, hpoint]

theorem CYConsoleKeyReturn_accepted (parse : List Char → CYDriver) (rl : Readline)
    (hpoint : rl.rl_point = rl.rl_line_buffer.length)
    (hne : rl.rl_line_buffer ≠ []) (hq : rl.rl_line_buffer.head? ≠ some '?')
    (hnl : rl.rl_line_buffer.head? ≠ some '\n') (hlen : rl.rl_line_buffer.length < 2147483648)
    (hp : (parse (rl.rl_line_buffer ++ ['\n'])).Parse = false)
    (he : (parse (rl.rl_line_buffer ++ ['\n'])).errors_ = []) (count : Int) :
    CYConsoleKeyReturn parse count rl = { rl with rl_done := true } := by
  rw [CYConsoleKeyReturn_at_end parse count rl hpoint hne hq hnl hlen, hp, he]
  simp [rl_newline]

theorem CYConsoleKeyReturn_incomplete (parse : List Char → CYDriver) (rl : Readline)
    (hpoint : rl.rl_point = rl.rl_line_buffer.length)
    (hne : rl.rl_line_buffer ≠ []) (hq : rl.rl_line_buffer.head? ≠ some '?')
    (hnl : rl.rl_line_buffer.head? ≠ some '\n') (hlen : rl.rl_line_buffer.length < 2147483648)
    (error : CYDriverError) (rest : List CYDriverError)
    (he : (parse (rl.rl_line_buffer ++ ['\n'])).errors_ = error :: rest)
    (hline : error.line = rl.rl_line_buffer.count '\n' + 2) :
    CYConsoleKeyReturn parse 1 rl
      = { rl with rl_line_buffer := rl.rl_line_buffer ++ ['\n'],
                  rl_point := rl.rl_point + 1 } := by
  rw [CYConsoleKeyReturn_at_end parse 1 rl hpoint hne hq hnl hlen, he]
  simp [hline, rl_insert_one_at_end _ rl hpoint]

/-- Claim C1: with the point at the end of a non-empty buffer that starts with
neither `?` nor a newline (and whose length fits the `int` `rl_end`),
`CYConsoleKeyReturn` (a) submits and leaves the buffer
unchanged whenever the parser accepts buffer plus newline without diagnostics, and
(b) on one Enter appends exactly one newline and does not submit whenever the first
diagnostic is on the line just behind the synthetic trailing newline.  Hence, for a
parser that accepts `1+1` and the closed function and reports the open function as
unfinished at the end of input, `1+1` is submitted by the first Enter, and the
function typed over two lines is handed on once, as one unit. -/
theorem CYConsoleKeyReturn_submits_or_continues (parse : List Char → CYDriver) :
    (∀ rl : Readline, rl.rl_point = rl.rl_line_buffer.length → rl.rl_line_buffer ≠ [] →
      rl.rl_line_buffer.head? ≠ some '?' → rl.rl_line_buffer.head? ≠ some '\n' →
      rl.rl_line_buffer.length < 2147483648 →
      (parse (rl.rl_line_buffer ++ ['\n'])).Parse = false →
      (parse (rl.rl_line_buffer ++ ['\n'])).errors_ = [] →
      ∀ count : Int, CYConsoleKeyReturn parse count rl = { rl with rl_done := true }) ∧
    (∀ rl : Readline, rl.rl_point = rl.rl_line_buffer.length → rl.rl_line_buffer ≠ [] →
      rl.rl_line_buffer.head? ≠ some '?' → rl.rl_line_buffer.head? ≠ some '\n' →
      rl.rl_line_buffer.length < 2147483648 →
      ∀ (error : CYDriverError) (rest : List CYDriverError),
      (parse (rl.rl_line_buffer ++ ['\n'])).errors_ = error :: rest →
      error.line = rl.rl_line_buffer.count '\n' + 2 →
      CYConsoleKeyReturn parse 1 rl
        = { rl with rl_line_buffer := rl.rl_line_buffer ++ ['\n'],
                    rl_point := rl.rl_point + 1 }) ∧
    (parse "1+1\n".toList = ⟨false, []⟩ →
      CYConsoleKeyReturn parse 1 (typeText "1+1".toList ⟨[], 0, false⟩)
        = ⟨"1+1".toList, 3, true⟩) ∧
    (∀ (error : CYDriverError) (rest : List CYDriverError),
      (parse "function f() \x7b\n".toList).errors_ = error :: rest → error.line = 2 →
      parse "function f() \x7b\n\x7d\n".toList = ⟨false, []⟩ →
      CYConsoleKeyReturn parse 1 (typeText "function f() \x7b".toList ⟨[], 0, false⟩)
          = ⟨"function f() \x7b\n".toList, 15, false⟩ ∧
      CYConsoleKeyReturn parse 1
          (typeText "\x7d".toList ⟨"function f() \x7b\n".toList, 15, false⟩)
          = ⟨"function f() \x7b\n\x7d".toList, 16, true⟩) := by
  refine ⟨?_, ?_, ?_, ?_⟩
  · intro rl hpoint hne hq hnl hlen hp he count
    exact CYConsoleKeyReturn_accepted parse rl hpoint hne hq hnl hlen hp he count
  · intro rl hpoint hne hq hnl hlen error rest he hline
    exact CYConsoleKeyReturn_incomplete parse rl hpoint hne hq hnl hlen error rest he hline
  · intro h
    exact CYConsoleKeyReturn_accepted parse ⟨"1+1".toList, 3, false⟩ rfl (by decide)
      (by decide) (by decide) (by decide) (by rw [show (⟨"1+1".toList, 3, false⟩ :
        Readline).rl_line_buffer ++ ['\n'] = "1+1\n".toList from rfl, h])
      (by rw [show (⟨"1+1".toList, 3, false⟩ :
        Readline).rl_line_buffer ++ ['\n'] = "1+1\n".toList from rfl, h]) 1
  · intro error rest he hline hacc
    constructor
    · exact CYConsoleKeyReturn_incomplete parse ⟨"function f() \x7b".toList, 14, false⟩ rfl
        (by decide) (by decide) (by decide) (by decide) error rest he hline
    · exact CYConsoleKeyReturn_accepted parse ⟨"function f() \x7b\n\x7d".toList, 16, false⟩ rfl
        (by decide) (by decide) (by decide) (by decide)
        (by rw [show (⟨"function f() \x7b\n\x7d".toList, 16, false⟩ :
          Readline).rl_line_buffer ++ ['\n'] = "function f() \x7b\n\x7d\n".toList from rfl, hacc])
        (by rw [show (⟨"function f() \x7b\n\x7d".toList, 16, false⟩ :
          Readline).rl_line_buffer ++ ['\n'] = "function f() \x7b\n\x7d\n".toList from rfl, hacc])
        1

/-- The Enter theorem at the brace-balance stand-in parser: `1+1` is submitted by
the first Enter; the first Enter behind the open function appends a newline and
submits nothing; the Enter behind the closing brace submits the two lines as one
unit. -/
theorem CYConsoleKeyReturn_submits_or_continues_witness :
    (CYConsoleKeyReturn braceParser 1 (typeText "1+1".toList ⟨[], 0, false⟩)
        = ⟨"1+1".toList, 3, true⟩) ∧
    (CYConsoleKeyReturn braceParser 1 (typeText "function f() \x7b".toList ⟨[], 0, false⟩)
        = ⟨"function f() \x7b\n".toList, 15, false⟩ ∧
     CYConsoleKeyReturn braceParser 1
        (typeText "\x7d".toList ⟨"function f() \x7b\n".toList, 15, false⟩)
        = ⟨"function f() \x7b\n\x7d".toList, 16, true⟩) :=
  ⟨(CYConsoleKeyReturn_submits_or_continues braceParser).2.2.1 (by decide),
   (CYConsoleKeyReturn_submits_or_continues braceParser).2.2.2 ⟨2⟩ [] (by decide) (by decide)
     (by decide)⟩

/-- Claim C2 as stated fails: on the two-line buffer `)`, newline, `x` a parse that
fails with a diagnostic on line 1, which is neither the last line of the buffer
(line 2) nor the line behind the synthetic newline (line 3), is submitted; no
newline is inserted. -/
theorem CYConsoleKeyReturn_earlier_line_submits :
    (firstLineError ")\nx\n".toList).Parse = true ∧
    (∃ error ∈ (firstLineError ")\nx\n".toList).errors_, error.line ≠ 2 ∧ error.line ≠ 3) ∧
    CYConsoleKeyReturn firstLineError 1 ⟨")\nx".toList, 3, false⟩
      = ⟨")\nx".toList, 3, true⟩ := by
  refine ⟨rfl, ⟨⟨1⟩, by decide, by decide, by decide⟩, ?_⟩
  rw [CYConsoleKeyReturn_at_end firstLineError 1 ⟨")\nx".toList, 3, false⟩ rfl (by decide)
    (by decide) (by decide) (by decide)]
  decide

/-- Claim C2, amended: with the point at the end of a non-empty buffer that starts
with neither `?` nor a newline (and whose length fits the `int` `rl_end`), one
Enter inserts a newline instead of submitting
exactly when the parse of buffer plus newline is not cleanly accepted (it fails or
reports a diagnostic) and its first diagnostic, if there is one, is reported on the
line just behind the synthetic trailing newline; in every other case (the parse is
accepted without diagnostics, or the first diagnostic is on an earlier line) it
submits and leaves the buffer unchanged. -/
theorem CYConsoleKeyReturn_continues_iff (parse : List Char → CYDriver) (rl : Readline)
    (hpoint : rl.rl_point = rl.rl_line_buffer.length)
    (hne : rl.rl_line_buffer ≠ []) (hq : rl.rl_line_buffer.head? ≠ some '?')
    (hnl : rl.rl_line_buffer.head? ≠ some '\n') (hlen : rl.rl_line_buffer.length < 2147483648) :
    ((((parse (rl.rl_line_buffer ++ ['\n'])).Parse = true ∨
          (parse (rl.rl_line_buffer ++ ['\n'])).errors_ ≠ []) ∧
        (∀ error ∈ (parse (rl.rl_line_buffer ++ ['\n'])).errors_.head?,
          error.line = rl.rl_line_buffer.count '\n' + 2)) →
      CYConsoleKeyReturn parse 1 rl
        = { rl with rl_line_buffer := rl.rl_line_buffer ++ ['\n'],
                    rl_point := rl.rl_point + 1 }) ∧
    (¬ (((parse (rl.rl_line_buffer ++ ['\n'])).Parse = true ∨
          (parse (rl.rl_line_buffer ++ ['\n'])).errors_ ≠ []) ∧
        (∀ error ∈ (parse (rl.rl_line_buffer ++ ['\n'])).errors_.head?,
          error.line = rl.rl_line_buffer.count '\n' + 2)) →
      CYConsoleKeyReturn parse 1 rl = { rl with rl_done := true }) := by
  rw [CYConsoleKeyReturn_at_end parse 1 rl hpoint hne hq hnl hlen,
    rl_insert_one_at_end _ rl hpoint]
  cases hp : (parse (rl.rl_line_buffer ++ ['\n'])).Parse <;>
  cases he : (parse (rl.rl_line_buffer ++ ['\n'])).errors_ with
  | nil => simp [rl_newline]
  | cons error rest =>
    by_cases hline : error.line = rl.rl_line_buffer.count '\n' + 2 <;> simp [rl_newline, hline]

/-- The amended Enter rule at the open function and the brace-balance stand-in
parser: the parse fails with its only diagnostic at the end of input, and a newline
is appended. -/
theorem CYConsoleKeyReturn_continues_iff_witness :
    (((braceParser ("function f() \x7b".toList ++ ['\n'])).Parse = true ∨
        (braceParser ("function f() \x7b".toList ++ ['\n'])).errors_ ≠ []) ∧
      (∀ error ∈ (braceParser ("function f() \x7b".toList ++ ['\n'])).errors_.head?,
        error.line = "function f() \x7b".toList.count '\n' + 2)) ∧
    CYConsoleKeyReturn braceParser 1 ⟨"function f() \x7b".toList, 14, false⟩
      = ⟨"function f() \x7b".toList ++ ['\n'], 14 + 1, false⟩ :=
  ⟨by decide,
   (CYConsoleKeyReturn_continues_iff braceParser ⟨"function f() \x7b".toList, 14, false⟩ rfl
      (by decide) (by decide) (by decide) (by decide)).1 (by decide)⟩

/-! ## Input controller: Backspace in the indentation -/

theorem CYmemrchr_after_spaces (P R : List Char) (n : Nat) :
    ∀ j, j ≤ n →
      CYmemrchr (P ++ '\n' :: (List.replicate n ' ' ++ R)) '\n' (P.length + 1 + j)
        = some P.length := by
  intro j
  induction j with
  | zero =>
    intro _
    have hget : (P ++ '\n' :: (List.replicate n ' ' ++ R)).get? P.length = some '\n' := by
      rw [List.get?_eq_getElem?, List.getElem?_append_right (Nat.le_refl _)]
      simp
    show CYmemrchr _ _ (P.length + 1) = _
    rw [CYmemrchr, if_pos hget]
  | succ j ih =>
    intro hj
    have hget : (P ++ '\n' :: (List.replicate n ' ' ++ R)).get? (P.length + 1 + j)
        = some ' ' := by
      rw [List.get?_eq_getElem?, List.getElem?_append_right (by omega)]
      have e : P.length + 1 + j - P.length = j + 1 := by omega
      have h1 : j < (List.replicate n ' ').length := by
        rw [List.length_replicate]; omega
      rw [e, List.getElem?_cons_succ, List.getElem?_append_left h1, List.getElem?_replicate]
      simp
      omega
    have e2 : P.length + 1 + (j + 1) = (P.length + 1 + j) + 1 := by omega
    rw [e2, CYmemrchr, hget, if_neg (by decide)]
    exact ih (by omega)

theorem indent_slice (P R : List Char) (n : Nat) :
    ((P ++ '\n' :: (List.replicate n ' ' ++ R)).drop (P.length + 1)).take
        (P.length + 1 + n - (P.length + 1)) = List.replicate n ' ' := by
  have e : P.length + 1 + n - (P.length + 1) = n := by omega
  rw [e, List.drop_append_eq_append_drop, List.drop_of_length_le (by omega)]
  simp

/-- The editor's delete-range applied to `d` of the `n` spaces of an indentation. -/
theorem rl_rubout_indent (P R : List Char) (n d : Nat) (hd1 : 1 ≤ d) (hdn : d ≤ n)
    (done : Bool) :
    rl_rubout (d : Int) ⟨P ++ '\n' :: (List.replicate n ' ' ++ R), P.length + 1 + n, done⟩
      = ⟨P ++ '\n' :: (List.replicate (n - d) ' ' ++ R), P.length + 1 + (n - d), done⟩ := by
  have hk : (if (d : Int) > 1 then min (d : Int).toNat (P.length + 1 + n) else 1) = d := by
    by_cases h : (d : Int) > 1
    · simp [h]; omega
    · simp [h]; omega
  have h0 : ¬ ((d : Int) < 0) := by omega
  have hp : ¬ (P.length + 1 + n = 0) := by omega
  simp only [rl_rubout, h0, hp, if_false, hk]
  have e1 : P.length + 1 + n - d = P.length + 1 + (n - d) := by omega
  rw [e1]
  congr 1
  have t1 : (P ++ '\n' :: (List.replicate n ' ' ++ R)).take (P.length + 1 + (n - d))
      = P ++ '\n' :: List.replicate (n - d) ' ' := by
    rw [List.take_append_eq_append_take]
    have e : P.length + 1 + (n - d) - P.length = (n - d) + 1 := by omega
    rw [e, List.take_of_length_le (by omega), List.take_succ_cons,
      List.take_append_eq_append_take]
    simp
  have t2 : (P ++ '\n' :: (List.replicate n ' ' ++ R)).drop (P.length + 1 + n) = R := by
    rw [List.drop_append_eq_append_drop]
    have e : P.length + 1 + n - P.length = n + 1 := by omega
    rw [e, List.drop_of_length_le (by omega), List.drop_succ_cons,
      List.drop_append_eq_append_drop]
    simp
  rw [t1, t2]
  simp

/-- Claim C10 as stated fails: behind a newline and 5 spaces one Backspace deletes
one space (column 5 lands on column 4), not `min 4 5 = 4` of them. -/
theorem CYConsoleKeyBack_five_spaces :
    CYConsoleKeyBack 1 ⟨"x\n     y".toList, 7, false⟩ = ⟨"x\n    y".toList, 6, false⟩ ∧
    min 4 5 = 4 := by
  decide

/-- One Backspace behind a newline and `n ≥ 1` spaces. -/
theorem CYConsoleKeyBack_spaces (P R : List Char) (n : Nat) (hn : 1 ≤ n) (done : Bool) :
    CYConsoleKeyBack 1 ⟨P ++ '\n' :: (List.replicate n ' ' ++ R), P.length + 1 + n, done⟩
      = ⟨P ++ '\n' :: (List.replicate (n - ((n - 1) % 4 + 1)) ' ' ++ R),
          P.length + 1 + (n - ((n - 1) % 4 + 1)), done⟩ := by
  have hm := CYmemrchr_after_spaces P R n n (Nat.le_refl _)
  have hs := indent_slice P R n
  have hne : ¬ (P.length + 1 = P.length + 1 + n) := by omega
  simp only [CYConsoleKeyBack, hm, hne, if_false, hs]
  have hall : (List.replicate n ' ').all (· == ' ') = true := by simp
  simp only [hall, if_true]
  have e : P.length + 1 + n - (P.length + 1) = n := by omega
  rw [e]
  have hd : (if n % 4 ≠ 0 then ((n % 4 : Nat) : Int) else 4)
      = (((n - 1) % 4 + 1 : Nat) : Int) := by
    by_cases h : n % 4 = 0
    · simp [h]; omega
    · simp [h]; omega
  rw [hd]
  exact rl_rubout_indent P R n ((n - 1) % 4 + 1) (by omega) (by omega) done

/-- Claim C10, amended: on a logical line that follows a newline, with exactly
`n ≥ 1` spaces between the start of the line and the point, one Backspace deletes
`((n - 1) mod 4) + 1` of those spaces (`n mod 4` of them, or 4 when `n` is a
multiple of 4), so the point lands on the previous multiple of 4: column 8 lands on
column 4 and column 2 on column 0; the rest of the buffer is unchanged. -/
theorem CYConsoleKeyBack_indent_unit (P R : List Char) (n : Nat) (hn : 1 ≤ n) (done : Bool) :
    CYConsoleKeyBack 1 ⟨P ++ '\n' :: (List.replicate n ' ' ++ R), P.length + 1 + n, done⟩
      = ⟨P ++ '\n' :: (List.replicate (n - ((n - 1) % 4 + 1)) ' ' ++ R),
          P.length + 1 + (n - ((n - 1) % 4 + 1)), done⟩ :=
  CYConsoleKeyBack_spaces P R n hn done

/-- The Backspace theorem at 8 leading spaces: column 8 lands on column 4. -/
theorem CYConsoleKeyBack_indent_unit_witness :
    (1 ≤ 8) ∧
    CYConsoleKeyBack 1
        ⟨['x'] ++ '\n' :: (List.replicate 8 ' ' ++ ['y']), ['x'].length + 1 + 8, false⟩
      = ⟨['x'] ++ '\n' :: (List.replicate (8 - ((8 - 1) % 4 + 1)) ' ' ++ ['y']),
          ['x'].length + 1 + (8 - ((8 - 1) % 4 + 1)), false⟩ :=
  ⟨by decide, CYConsoleKeyBack_indent_unit ['x'] ['y'] 8 (by decide) false⟩

/-! ## Input controller: Tab in the indentation -/

theorem CYmemrchr_after_line (Q X Y : List Char) (hX : '\n' ∉ X) :
    ∀ j, j ≤ X.length →
      CYmemrchr (Q ++ '\n' :: (X ++ Y)) '\n' (Q.length + 1 + j) = some Q.length := by
  intro j
  induction j with
  | zero =>
    intro _
    have hget : (Q ++ '\n' :: (X ++ Y)).get? Q.length = some '\n' := by
      rw [List.get?_eq_getElem?, List.getElem?_append_right (Nat.le_refl _)]
      simp
    show CYmemrchr _ _ (Q.length + 1) = _
    rw [CYmemrchr, if_pos hget]
  | succ j ih =>
    intro hj
    have hjl : j < X.length := by omega
    have hget : (Q ++ '\n' :: (X ++ Y)).get? (Q.length + 1 + j) = some (X.get ⟨j, hjl⟩) := by
      rw [List.get?_eq_getElem?, List.getElem?_append_right (by omega)]
      have e : Q.length + 1 + j - Q.length = j + 1 := by omega
      rw [e, List.getElem?_cons_succ, List.getElem?_append_left hjl]
      simp
    have hne : ¬ (some (X.get ⟨j, hjl⟩) = some '\n') := by
      intro h
      apply hX
      have := List.get_mem X j hjl
      rw [Option.some.inj h] at this
      exact this
    have e2 : Q.length + 1 + (j + 1) = (Q.length + 1 + j) + 1 := by omega
    rw [e2, CYmemrchr, hget, if_neg hne]
    exact ih (by omega)

theorem CYmemrchr_none_of_not_mem (X Y : List Char) (hX : '\n' ∉ X) :
    ∀ j, j ≤ X.length → CYmemrchr (X ++ Y) '\n' j = none := by
  intro j
  induction j with
  | zero => intro _; rfl
  | succ j ih =>
    intro hj
    have hjl : j < X.length := by omega
    have hget : (X ++ Y).get? j = some (X.get ⟨j, hjl⟩) := by
      rw [List.get?_eq_getElem?, List.getElem?_append_left hjl]
      simp
    have hne : ¬ (some (X.get ⟨j, hjl⟩) = some '\n') := by
      intro h
      apply hX
      have := List.get_mem X j hjl
      rw [Option.some.inj h] at this
      exact this
    rw [CYmemrchr, hget, if_neg hne]
    exact ih (by omega)

/-- The search for the newline in front of a position inside a logical line: it is
the last character of the text in front of the line, or there is none. -/
theorem CYmemrchr_line_start (P X Y : List Char)
    (hP : P = [] ∨ ∃ Q, P = Q ++ ['\n']) (hX : '\n' ∉ X) (j : Nat) (hj : j ≤ X.length) :
    ∃ ob : Option Nat, CYmemrchr (P ++ (X ++ Y)) '\n' (P.length + j) = ob ∧
      ob.elim (-1 : Int) (fun b => (b : Int)) = (P.length : Int) - 1 := by
  rcases hP with hP | ⟨Q, hP⟩
  · subst hP
    refine ⟨none, ?_, by simp⟩
    simp only [List.nil_append, List.length_nil, Nat.zero_add]
    exact CYmemrchr_none_of_not_mem X Y hX j hj
  · subst hP
    refine ⟨some Q.length, ?_, by simp⟩
    have e1 : Q ++ ['\n'] ++ (X ++ Y) = Q ++ '\n' :: (X ++ Y) := by simp
    have e2 : (Q ++ ['\n']).length + j = Q.length + 1 + j := by simp
    rw [e1, e2, CYmemrchr_after_line Q X Y hX j hj]

theorem rl_insert_indent (P R : List Char) (n k : Nat) (hk : 1 ≤ k) (done : Bool) :
    rl_insert (k : Int) ' ' ⟨P ++ '\n' :: (List.replicate n ' ' ++ R), P.length + 1 + n, done⟩
      = ⟨P ++ '\n' :: (List.replicate n ' ' ++ (List.replicate k ' ' ++ R)),
          P.length + 1 + n + k, done⟩ := by
  have h0 : ¬ ((k : Int) ≤ 0) := by omega
  simp only [rl_insert, h0, if_false, Int.toNat_ofNat]
  have t1 : (P ++ '\n' :: (List.replicate n ' ' ++ R)).take (P.length + 1 + n)
      = P ++ '\n' :: List.replicate n ' ' := by
    rw [List.take_append_eq_append_take]
    have e : P.length + 1 + n - P.length = n + 1 := by omega
    rw [e, List.take_of_length_le (by omega), List.take_succ_cons,
      List.take_append_eq_append_take]
    simp
  have t2 : (P ++ '\n' :: (List.replicate n ' ' ++ R)).drop (P.length + 1 + n) = R := by
    rw [List.drop_append_eq_append_drop]
    have e : P.length + 1 + n - P.length = n + 1 := by omega
    rw [e, List.drop_of_length_le (by omega), List.drop_succ_cons,
      List.drop_append_eq_append_drop]
    simp
  rw [t1, t2]
  simp only [List.append_assoc, List.cons_append]

/-- Tab behind a newline and `n` spaces. -/
theorem CYConsoleKeyTab_spaces (complete : Readline → Readline) (P R : List Char) (n : Nat)
    (done : Bool) :
    CYConsoleKeyTab complete ⟨P ++ '\n' :: (List.replicate n ' ' ++ R), P.length + 1 + n, done⟩
      = (⟨P ++ '\n' :: (List.replicate n ' ' ++ (List.replicate (4 - n % 4) ' ' ++ R)),
          P.length + 1 + n + (4 - n % 4), done⟩, false) := by
  have hm := CYmemrchr_after_spaces P R n n (Nat.le_refl _)
  have hs := indent_slice P R n
  simp only [CYConsoleKeyTab, hm, hs]
  have hall : (List.replicate n ' ').all (· == ' ') = true := by simp
  simp only [hall, if_true]
  have e : P.length + 1 + n - (P.length + 1) = n := by omega
  have hd : (4 : Int) - ((n % 4 : Nat) : Int) = ((4 - n % 4 : Nat) : Int) := by omega
  rw [e, hd, rl_insert_indent P R n (4 - n % 4) (by omega) done]

/-- Tab behind a non-space character of the logical line, on any line. -/
theorem CYConsoleKeyTab_completes (complete : Readline → Readline) (P L R : List Char)
    (done : Bool) (hP : P = [] ∨ ∃ Q, P = Q ++ ['\n']) (hL : '\n' ∉ L)
    (hc : ∃ c ∈ L, c ≠ ' ') :
    CYConsoleKeyTab complete ⟨P ++ (L ++ R), P.length + L.length, done⟩
      = (complete ⟨P ++ (L ++ R), P.length + L.length, done⟩, true) := by
  rcases hP with hP | ⟨Q, hP⟩
  · subst hP
    have := CYmemrchr_none_of_not_mem L R hL L.length (Nat.le_refl _)
    simp only [List.nil_append, List.length_nil, Nat.zero_add]
    simp only [CYConsoleKeyTab, this]
  · subst hP
    have e1 : Q ++ ['\n'] ++ (L ++ R) = Q ++ '\n' :: (L ++ R) := by simp
    have e2 : (Q ++ ['\n']).length + L.length = Q.length + 1 + L.length := by simp
    have hm := CYmemrchr_after_line Q L R hL L.length (Nat.le_refl _)
    rw [e1, e2]
    have hs : ((Q ++ '\n' :: (L ++ R)).drop (Q.length + 1)).take
        (Q.length + 1 + L.length - (Q.length + 1)) = L := by
      have e : Q.length + 1 + L.length - (Q.length + 1) = L.length := by omega
      rw [e, List.drop_append_eq_append_drop, List.drop_of_length_le (by omega)]
      simp
    have hall : L.all (· == ' ') = false := by
      obtain ⟨c, hcL, hc⟩ := hc
      rw [Bool.eq_false_iff]
      intro h
      rw [List.all_eq_true] at h
      have := h c hcL
      simp at this
      exact hc this
    simp only [CYConsoleKeyTab, hm, hs, hall]
    simp

/-- Claim C11 as stated fails: on the first logical line, behind two spaces, Tab
goes to completion and inserts no space (here with a completion that finds
nothing). -/
theorem CYConsoleKeyTab_first_line_completes :
    CYConsoleKeyTab id ⟨"  ".toList, 2, false⟩ = (⟨"  ".toList, 2, false⟩, true) ∧
    CYConsoleKeyTab id ⟨"  ".toList, 2, false⟩
      ≠ (⟨"  ".toList ++ List.replicate (4 - 2 % 4) ' ', 2 + (4 - 2 % 4), false⟩, false) := by
  decide

/-- Claim C11, amended: on a logical line that follows a newline, when everything
between the start of the line and the point is a run of `n ≥ 1` spaces,
`CYConsoleKeyTab` inserts exactly `4 - (n mod 4)` spaces at the point and does not
invoke completion; on any logical line, the first included, when a non-space
character lies between the line start and the point, it inserts nothing itself and
invokes completion; on the first logical line it invokes completion whatever lies
in front of the point. -/
theorem CYConsoleKeyTab_soft_tab (complete : Readline → Readline) :
    (∀ (P R : List Char) (n : Nat) (done : Bool), 1 ≤ n →
      CYConsoleKeyTab complete
          ⟨P ++ '\n' :: (List.replicate n ' ' ++ R), P.length + 1 + n, done⟩
        = (⟨P ++ '\n' :: (List.replicate n ' ' ++ (List.replicate (4 - n % 4) ' ' ++ R)),
            P.length + 1 + n + (4 - n % 4), done⟩, false)) ∧
    (∀ (P L R : List Char) (done : Bool), (P = [] ∨ ∃ Q, P = Q ++ ['\n']) → '\n' ∉ L →
      (∃ c ∈ L, c ≠ ' ') →
      CYConsoleKeyTab complete ⟨P ++ (L ++ R), P.length + L.length, done⟩
        = (complete ⟨P ++ (L ++ R), P.length + L.length, done⟩, true)) ∧
    (∀ (L R : List Char) (done : Bool), '\n' ∉ L →
      CYConsoleKeyTab complete ⟨L ++ R, L.length, done⟩
        = (complete ⟨L ++ R, L.length, done⟩, true)) := by
  refine ⟨fun P R n done _ => CYConsoleKeyTab_spaces complete P R n done,
    fun P L R done hP hL hc => CYConsoleKeyTab_completes complete P L R done hP hL hc, ?_⟩
  intro L R done hL
  have := CYmemrchr_none_of_not_mem L R hL L.length (Nat.le_refl _)
  simp only [CYConsoleKeyTab, this]

/-- The Tab theorem behind a newline and two spaces (two more spaces go in), and on
the first line behind the letter `a` (completion). -/
theorem CYConsoleKeyTab_soft_tab_witness :
    CYConsoleKeyTab id
        ⟨['x'] ++ '\n' :: (List.replicate 2 ' ' ++ ['y']), ['x'].length + 1 + 2, false⟩
      = (⟨['x'] ++ '\n' :: (List.replicate 2 ' ' ++ (List.replicate (4 - 2 % 4) ' ' ++ ['y'])),
          ['x'].length + 1 + 2 + (4 - 2 % 4), false⟩, false) ∧
    CYConsoleKeyTab id ⟨[] ++ (['a'] ++ ['b']), ([] : List Char).length + ['a'].length, false⟩
      = (id ⟨[] ++ (['a'] ++ ['b']), ([] : List Char).length + ['a'].length, false⟩, true) :=
  ⟨(CYConsoleKeyTab_soft_tab id).1 ['x'] ['y'] 2 false (by decide),
   (CYConsoleKeyTab_soft_tab id).2.1 [] ['a'] ['b'] false (Or.inl rfl) (by decide)
     ⟨'a', by decide, by decide⟩⟩

/-- Claim C17 (soft-tab stops are multiples of 4): on a logical line that follows a
newline, with exactly `n` spaces between the line start and the point, Backspace
(`n ≥ 1`) deletes `((n - 1) mod 4) + 1` spaces and leaves the column at
`4 * ((n - 1) / 4)`, and Tab (`n ≥ 0`) inserts `4 - (n mod 4)` spaces and leaves the
column at `4 * (n / 4 + 1)`; the rest of the buffer is unchanged. -/
theorem soft_tab_stops (P R : List Char) (n : Nat) (done : Bool) :
    (1 ≤ n →
      CYConsoleKeyBack 1 ⟨P ++ '\n' :: (List.replicate n ' ' ++ R), P.length + 1 + n, done⟩
        = ⟨P ++ '\n' :: (List.replicate (n - ((n - 1) % 4 + 1)) ' ' ++ R),
            P.length + 1 + (n - ((n - 1) % 4 + 1)), done⟩ ∧
      n - ((n - 1) % 4 + 1) = 4 * ((n - 1) / 4)) ∧
    (∀ complete : Readline → Readline,
      CYConsoleKeyTab complete
          ⟨P ++ '\n' :: (List.replicate n ' ' ++ R), P.length + 1 + n, done⟩
        = (⟨P ++ '\n' :: (List.replicate n ' ' ++ (List.replicate (4 - n % 4) ' ' ++ R)),
            P.length + 1 + (n + (4 - n % 4)), done⟩, false)) ∧
    n + (4 - n % 4) = 4 * (n / 4 + 1) := by
  refine ⟨fun hn => ⟨CYConsoleKeyBack_spaces P R n hn done, by omega⟩, ?_, by omega⟩
  intro complete
  rw [CYConsoleKeyTab_spaces complete P R n done, Nat.add_assoc]

/-- The soft-tab theorem at 6 spaces: Backspace lands on column 4, Tab on column 8. -/
theorem soft_tab_stops_witness :
    (CYConsoleKeyBack 1
        ⟨['x'] ++ '\n' :: (List.replicate 6 ' ' ++ ['y']), ['x'].length + 1 + 6, false⟩
      = ⟨['x'] ++ '\n' :: (List.replicate (6 - ((6 - 1) % 4 + 1)) ' ' ++ ['y']),
          ['x'].length + 1 + (6 - ((6 - 1) % 4 + 1)), false⟩ ∧
      6 - ((6 - 1) % 4 + 1) = 4 * ((6 - 1) / 4)) ∧
    CYConsoleKeyTab id
        ⟨['x'] ++ '\n' :: (List.replicate 6 ' ' ++ ['y']), ['x'].length + 1 + 6, false⟩
      = (⟨['x'] ++ '\n' :: (List.replicate 6 ' ' ++ (List.replicate (4 - 6 % 4) ' ' ++ ['y'])),
          ['x'].length + 1 + (6 + (4 - 6 % 4)), false⟩, false) :=
  ⟨(soft_tab_stops ['x'] ['y'] 6 false).1 (by decide),
   (soft_tab_stops ['x'] ['y'] 6 false).2.1 id⟩

/-! ## Input controller: Up and Down -/

theorem memchr_not_mem (X : List Char) (c : Char) (hX : c ∉ X) :
    ∀ n, memchr X c n = none := by
  induction X with
  | nil => intro n; cases n <;> rfl
  | cons a t ih =>
    intro n
    cases n with
    | zero => rfl
    | succ n =>
      have ha : ¬ a = c := fun h => hX (by simp [h])
      have ht : c ∉ t := fun h => hX (List.mem_cons_of_mem _ h)
      simp [memchr, ha, ih ht]

theorem memchr_first (X Y : List Char) (c : Char) (hX : c ∉ X) :
    ∀ n, X.length < n → memchr (X ++ c :: Y) c n = some X.length := by
  induction X with
  | nil =>
    intro n hn
    cases n with
    | zero => simp at hn
    | succ n => simp [memchr]
  | cons a t ih =>
    intro n hn
    cases n with
    | zero => simp at hn
    | succ n =>
      have ha : ¬ a = c := fun h => hX (by simp [h])
      have ht : c ∉ t := fun h => hX (List.mem_cons_of_mem _ h)
      have := ih ht n (by simpa using hn)
      simp [memchr, ha, this]

/-- One step of `CYConsoleKeyUp` from a line that has a newline in front of the
point. -/
theorem CYConsoleKeyUp_one (s : Navigation) (after : Nat) (ob : Option Nat)
    (hv : ¬ (s.rl_point < 0 ∨ (s.rl_line_buffer.length : Int) < s.rl_point))
    (ha : CYmemrchr s.rl_line_buffer '\n' s.rl_point.toNat = some after)
    (hb : CYmemrchr s.rl_line_buffer '\n' after = ob) :
    CYConsoleKeyUp 1 s =
      if s.rl_point - (after : Int) > (after : Int) - ob.elim (-1 : Int) (fun b => (b : Int)) then
        { s with rl_point := (after : Int) }
      else
        { s with rl_point := ob.elim (-1 : Int) (fun b => (b : Int)) + (s.rl_point - (after : Int)) } := by
  simp only [CYConsoleKeyUp, hv, if_false, ha, hb]
  cases ob <;> rfl

/-- One Up from a logical line that has a line in front of it. -/
theorem CYConsoleKeyUp_moves (P A B1 B2 : List Char) (h : HistoryState)
    (hP : P = [] ∨ ∃ Q, P = Q ++ ['\n']) (hA : '\n' ∉ A) (hB : '\n' ∉ B1) :
    CYConsoleKeyUp 1
        ⟨P ++ (A ++ '\n' :: (B1 ++ B2)), ((P.length + A.length + 1 + B1.length : Nat) : Int), h⟩
      = ⟨P ++ (A ++ '\n' :: (B1 ++ B2)), ((P.length + min B1.length A.length : Nat) : Int), h⟩ := by
  have hvalid : ¬ ((((P.length + A.length + 1 + B1.length : Nat) : Int) < 0) ∨
      (((P ++ (A ++ '\n' :: (B1 ++ B2))).length : Int)
        < ((P.length + A.length + 1 + B1.length : Nat) : Int))) := by
    simp only [List.length_append, List.length_cons]
    omega
  have hafter : CYmemrchr (P ++ (A ++ '\n' :: (B1 ++ B2))) '\n'
      ((P.length + A.length + 1 + B1.length : Nat) : Int).toNat = some (P.length + A.length) := by
    have := CYmemrchr_after_line (P ++ A) B1 B2 hB B1.length (Nat.le_refl _)
    simpa using this
  obtain ⟨ob, hb, hob⟩ :=
    CYmemrchr_line_start P A ('\n' :: (B1 ++ B2)) hP hA A.length (Nat.le_refl _)
  rw [CYConsoleKeyUp_one _ (P.length + A.length) ob hvalid hafter hb, hob]
  by_cases hc : B1.length ≤ A.length
  · rw [if_neg (by push_cast; omega), Nat.min_eq_left hc]
    congr 1
    push_cast
    omega
  · rw [if_pos (by push_cast; omega), Nat.min_eq_right (by omega)]

/-- One step of `CYConsoleKeyDown` from a line that has a newline at or behind the
point. -/
theorem CYConsoleKeyDown_one (s : Navigation) (k : Nat) (ob oj : Option Nat)
    (hv : ¬ (s.rl_point < 0 ∨ (s.rl_line_buffer.length : Int) < s.rl_point))
    (hk : memchr (s.rl_line_buffer.drop s.rl_point.toNat) '\n'
      (s.rl_line_buffer.length - s.rl_point.toNat) = some k)
    (hb : CYmemrchr s.rl_line_buffer '\n' s.rl_point.toNat = ob)
    (hj : memchr (s.rl_line_buffer.drop (s.rl_point.toNat + k + 1)) '\n'
      (s.rl_line_buffer.length - (s.rl_point.toNat + k) - 1) = oj) :
    CYConsoleKeyDown 1 s =
      if (s.rl_point.toNat : Int) - ob.elim (-1 : Int) (fun b => (b : Int))
          > ((oj.elim s.rl_line_buffer.length (fun j => s.rl_point.toNat + k + 1 + j) : Nat) : Int)
            - ((s.rl_point.toNat + k : Nat) : Int) then
        { s with rl_point :=
            ((oj.elim s.rl_line_buffer.length (fun j => s.rl_point.toNat + k + 1 + j) : Nat) : Int) }
      else
        { s with rl_point := ((s.rl_point.toNat + k : Nat) : Int)
            + ((s.rl_point.toNat : Int) - ob.elim (-1 : Int) (fun b => (b : Int))) } := by
  simp only [CYConsoleKeyDown, hv, if_false, hk, hb, hj]
  cases ob <;> cases oj <;> rfl

/-- One Down from a logical line that has a line behind it. -/
theorem CYConsoleKeyDown_moves (P B1 B2 N R : List Char) (h : HistoryState)
    (hP : P = [] ∨ ∃ Q, P = Q ++ ['\n']) (hB1 : '\n' ∉ B1) (hB2 : '\n' ∉ B2)
    (hN : '\n' ∉ N) (hR : R = [] ∨ ∃ T, R = '\n' :: T) :
    CYConsoleKeyDown 1
        ⟨P ++ (B1 ++ (B2 ++ '\n' :: (N ++ R))), ((P.length + B1.length : Nat) : Int), h⟩
      = ⟨P ++ (B1 ++ (B2 ++ '\n' :: (N ++ R))),
          ((P.length + B1.length + B2.length + 1 + min B1.length N.length : Nat) : Int), h⟩ := by
  have hlen : (P ++ (B1 ++ (B2 ++ '\n' :: (N ++ R)))).length
      = P.length + B1.length + B2.length + 1 + N.length + R.length := by
    simp only [List.length_append, List.length_cons]; omega
  have hvalid : ¬ ((((P.length + B1.length : Nat) : Int) < 0) ∨
      (((P ++ (B1 ++ (B2 ++ '\n' :: (N ++ R)))).length : Int)
        < ((P.length + B1.length : Nat) : Int))) := by
    rw [hlen]; omega
  have htn : ((P.length + B1.length : Nat) : Int).toNat = P.length + B1.length :=
    Int.toNat_ofNat _
  have hdrop1 : (P ++ (B1 ++ (B2 ++ '\n' :: (N ++ R)))).drop (P.length + B1.length)
      = B2 ++ '\n' :: (N ++ R) := by
    rw [← List.append_assoc, ← List.length_append, List.drop_left]
  have hk : memchr ((P ++ (B1 ++ (B2 ++ '\n' :: (N ++ R)))).drop
        ((P.length + B1.length : Nat) : Int).toNat) '\n'
      ((P ++ (B1 ++ (B2 ++ '\n' :: (N ++ R)))).length
        - ((P.length + B1.length : Nat) : Int).toNat) = some B2.length := by
    rw [htn, hdrop1, hlen]
    exact memchr_first B2 (N ++ R) '\n' hB2 _ (by omega)
  obtain ⟨ob, hb, hob⟩ :=
    CYmemrchr_line_start P B1 (B2 ++ '\n' :: (N ++ R)) hP hB1 B1.length (Nat.le_refl _)
  have hdrop2 : (P ++ (B1 ++ (B2 ++ '\n' :: (N ++ R)))).drop
      (P.length + B1.length + B2.length + 1) = N ++ R := by
    have e : P ++ (B1 ++ (B2 ++ '\n' :: (N ++ R))) = (P ++ B1 ++ B2 ++ ['\n']) ++ (N ++ R) := by
      simp
    have e2 : P.length + B1.length + B2.length + 1 = (P ++ B1 ++ B2 ++ ['\n']).length := by
      simp only [List.length_append, List.length_cons, List.length_nil]
    rw [e, e2, List.drop_left]
  have hj : ∃ oj : Option Nat,
      memchr ((P ++ (B1 ++ (B2 ++ '\n' :: (N ++ R)))).drop
          (((P.length + B1.length : Nat) : Int).toNat + B2.length + 1)) '\n'
        ((P ++ (B1 ++ (B2 ++ '\n' :: (N ++ R)))).length
          - (((P.length + B1.length : Nat) : Int).toNat + B2.length) - 1) = oj ∧
      oj.elim (P ++ (B1 ++ (B2 ++ '\n' :: (N ++ R)))).length
          (fun j => ((P.length + B1.length : Nat) : Int).toNat + B2.length + 1 + j)
        = P.length + B1.length + B2.length + 1 + N.length := by
    rw [htn, hdrop2, hlen]
    rcases hR with hR | ⟨T, hR⟩
    · subst hR
      refine ⟨none, ?_, by simp⟩
      rw [List.append_nil]
      exact memchr_not_mem N '\n' hN _
    · subst hR
      refine ⟨some N.length, ?_, by simp⟩
      exact memchr_first N T '\n' hN _ (by simp; omega)
  obtain ⟨oj, hj, hoj⟩ := hj
  rw [CYConsoleKeyDown_one _ B2.length ob oj hvalid hk (by rw [htn]; exact hb) hj, hob, hoj, htn]
  by_cases hc : B1.length ≤ N.length
  · rw [if_neg (by push_cast; omega), Nat.min_eq_left hc]
    congr 1
    push_cast
    omega
  · rw [if_pos (by push_cast; omega), Nat.min_eq_right (by omega)]

theorem CYmemrchr_none_not_mem (buf : List Char) (c : Char) :
    ∀ n, CYmemrchr buf c n = none → c ∉ buf.take n := by
  intro n
  induction n with
  | zero => intro _; simp
  | succ n ih =>
    intro h
    rw [CYmemrchr] at h
    split at h
    · cases h
    · rename_i hget
      have := ih h
      rw [List.take_succ]
      intro hmem
      rcases List.mem_append.mp hmem with h1 | h1
      · exact this h1
      · rw [List.get?_eq_getElem?] at hget
        cases hg : buf[n]? with
        | none => simp [hg] at h1
        | some x =>
          simp [hg] at h1
          rw [hg, h1] at hget
          exact hget rfl

/-- One Up that calls the history retrieval started on the first logical line. -/
theorem CYConsoleKeyUp_retrieval_first_line (s : Navigation)
    (h : (CYConsoleKeyUp 1 s).history.retrievals ≠ s.history.retrievals) :
    '\n' ∉ s.rl_line_buffer.take s.rl_point.toNat := by
  by_cases hv : s.rl_point < 0 ∨ (s.rl_line_buffer.length : Int) < s.rl_point
  · simp [CYConsoleKeyUp, hv] at h
  · cases hm : CYmemrchr s.rl_line_buffer '\n' s.rl_point.toNat with
    | none => exact CYmemrchr_none_not_mem _ _ _ hm
    | some after =>
      exfalso
      apply h
      rw [CYConsoleKeyUp_one s after _ hv hm rfl]
      split <;> rfl

/-- One Down that calls the history retrieval started on the last logical line. -/
theorem CYConsoleKeyDown_retrieval_last_line (s : Navigation)
    (h : (CYConsoleKeyDown 1 s).history.retrievals ≠ s.history.retrievals) :
    '\n' ∉ s.rl_line_buffer.drop s.rl_point.toNat := by
  by_cases hv : s.rl_point < 0 ∨ (s.rl_line_buffer.length : Int) < s.rl_point
  · simp [CYConsoleKeyDown, hv] at h
  · cases hm : memchr (s.rl_line_buffer.drop s.rl_point.toNat) '\n'
        (s.rl_line_buffer.length - s.rl_point.toNat) with
    | none =>
      have hf := (memchr_full (s.rl_line_buffer.drop s.rl_point.toNat) '\n').1
      rw [List.length_drop] at hf
      exact List.count_eq_zero.mp (hf hm)
    | some k =>
      exfalso
      apply h
      rw [CYConsoleKeyDown_one s k _ _ hv hm rfl rfl]
      split <;> rfl

theorem CYmemrchr_lt (buf : List Char) (c : Char) :
    ∀ n k, CYmemrchr buf c n = some k → k < n := by
  intro n
  induction n with
  | zero => intro k h; simp [CYmemrchr] at h
  | succ n ih =>
    intro k h
    rw [CYmemrchr] at h
    split at h
    · cases h; omega
    · have := ih k h; omega

theorem memchr_lt (l : List Char) (c : Char) :
    ∀ n k, memchr l c n = some k → k < n ∧ k < l.length := by
  induction l with
  | nil => intro n k h; cases n <;> simp [memchr] at h
  | cons a t ih =>
    intro n k h
    cases n with
    | zero => simp [memchr] at h
    | succ n =>
      simp only [memchr] at h
      split at h
      · cases h
        simp
      · cases hm : memchr t c n with
        | none => simp [hm] at h
        | some k2 =>
          simp [hm] at h
          subst h
          have := ih n k2 hm
          simp only [List.length_cons]
          omega

theorem rl_get_previous_history_point (s : Navigation)
    (h0 : 0 ≤ s.rl_point) (h1 : s.rl_point ≤ (s.rl_line_buffer.length : Int)) :
    0 ≤ (rl_get_previous_history s).rl_point ∧
      (rl_get_previous_history s).rl_point
        ≤ ((rl_get_previous_history s).rl_line_buffer.length : Int) := by
  obtain ⟨buf, point, ⟨hist, off, saved, retr⟩⟩ := s
  cases off with
  | zero => exact ⟨h0, h1⟩
  | succ k =>
    cases hg : hist.get? k with
    | none =>
      simp only [rl_get_previous_history, hg]
      exact ⟨h0, h1⟩
    | some entry =>
      simp only [rl_get_previous_history, hg]
      omega

theorem rl_get_next_history_cases (s : Navigation) :
    ((rl_get_next_history s).rl_point = ((rl_get_next_history s).rl_line_buffer.length : Int) ∨
      ((rl_get_next_history s).rl_point = s.rl_point ∧
        (rl_get_next_history s).rl_line_buffer = s.rl_line_buffer)) ∧
    (rl_get_next_history s).history.retrievals = s.history.retrievals + 1 := by
  obtain ⟨buf, point, ⟨hist, off, saved, retr⟩⟩ := s
  by_cases h : off < hist.length
  · cases hg : hist[off + 1]? with
    | some entry => simp [rl_get_next_history, h, hg]
    | none =>
      cases saved with
      | none => simp [rl_get_next_history, h, hg]
      | some line => simp [rl_get_next_history, h, hg]
  · cases saved with
    | none => simp [rl_get_next_history, h]
    | some line => simp [rl_get_next_history, h]

theorem rl_get_next_history_point (s : Navigation)
    (h0 : 0 ≤ s.rl_point) (h1 : s.rl_point ≤ (s.rl_line_buffer.length : Int)) :
    0 ≤ (rl_get_next_history s).rl_point ∧
      (rl_get_next_history s).rl_point
        ≤ ((rl_get_next_history s).rl_line_buffer.length : Int) := by
  rcases (rl_get_next_history_cases s).1 with h | ⟨h, hb⟩
  · rw [h]; omega
  · rw [h, hb]; exact ⟨h0, h1⟩

/-- One Up leaves the point inside the buffer, history retrieval included. -/
theorem CYConsoleKeyUp_point_in_buffer (s : Navigation)
    (h0 : 0 ≤ s.rl_point) (h1 : s.rl_point ≤ (s.rl_line_buffer.length : Int)) :
    0 ≤ (CYConsoleKeyUp 1 s).rl_point ∧
      (CYConsoleKeyUp 1 s).rl_point ≤ ((CYConsoleKeyUp 1 s).rl_line_buffer.length : Int) := by
  have hv : ¬ (s.rl_point < 0 ∨ (s.rl_line_buffer.length : Int) < s.rl_point) := by omega
  cases hm : CYmemrchr s.rl_line_buffer '\n' s.rl_point.toNat with
  | none =>
    have e : CYConsoleKeyUp 1 s = rl_get_previous_history s := by
      simp only [CYConsoleKeyUp, hv, if_false, hm]
    rw [e]
    exact rl_get_previous_history_point s h0 h1
  | some after =>
    have hlt := CYmemrchr_lt _ _ _ _ hm
    rw [CYConsoleKeyUp_one s after _ hv hm rfl]
    have hb : (-1 : Int) ≤ (CYmemrchr s.rl_line_buffer '\n' after).elim (-1 : Int)
          (fun b => (b : Int)) ∧
        (CYmemrchr s.rl_line_buffer '\n' after).elim (-1 : Int) (fun b => (b : Int))
          < (after : Int) := by
      cases hb : CYmemrchr s.rl_line_buffer '\n' after with
      | none => simp; omega
      | some b =>
        have := CYmemrchr_lt _ _ _ _ hb
        simp; omega
    split
    · simp only
      omega
    · simp only
      omega

/-- One Down leaves the point inside the buffer, unless it retrieved a buffer that
starts with a newline: then the point is -1. -/
theorem CYConsoleKeyDown_point (s : Navigation)
    (h0 : 0 ≤ s.rl_point) (h1 : s.rl_point ≤ (s.rl_line_buffer.length : Int)) :
    (0 ≤ (CYConsoleKeyDown 1 s).rl_point ∧
      (CYConsoleKeyDown 1 s).rl_point ≤ ((CYConsoleKeyDown 1 s).rl_line_buffer.length : Int)) ∨
    ((CYConsoleKeyDown 1 s).rl_point = -1 ∧
      (CYConsoleKeyDown 1 s).rl_line_buffer.head? = some '\n' ∧
      (CYConsoleKeyDown 1 s).history.retrievals ≠ s.history.retrievals) := by
  have hv : ¬ (s.rl_point < 0 ∨ (s.rl_line_buffer.length : Int) < s.rl_point) := by omega
  cases hm : memchr (s.rl_line_buffer.drop s.rl_point.toNat) '\n'
      (s.rl_line_buffer.length - s.rl_point.toNat) with
  | none =>
    have hn := rl_get_next_history_point s h0 h1
    have hr := (rl_get_next_history_cases s).2
    have e : CYConsoleKeyDown 1 s =
        if s.history.history_offset ≠ (rl_get_next_history s).history.history_offset then
          match memchr (rl_get_next_history s).rl_line_buffer '\n'
              (rl_get_next_history s).rl_line_buffer.length with
          | some first => { rl_get_next_history s with rl_point := (first : Int) - 1 }
          | none => rl_get_next_history s
        else rl_get_next_history s := by
      simp only [CYConsoleKeyDown, hv, if_false, hm]
    rw [e]
    split
    · split
      · rename_i first hf
        have hl := memchr_lt _ _ _ _ hf
        cases first with
        | zero =>
          right
          refine ⟨by simp, ?_, by simp [hr]⟩
          cases hbuf : (rl_get_next_history s).rl_line_buffer with
          | nil => rw [hbuf] at hf; simp [memchr] at hf
          | cons a t =>
            rw [hbuf] at hf
            simp only [List.length_cons, memchr] at hf
            split at hf
            · rename_i hac; simp [hac]
            · cases hm2 : memchr t '\n' t.length with
              | none => simp [hm2] at hf
              | some k2 => simp [hm2] at hf
        | succ f =>
          left
          simp only
          push_cast
          omega
      · left; exact hn
    · left; exact hn
  | some k =>
    left
    have hk := memchr_lt _ _ _ _ hm
    rw [CYConsoleKeyDown_one s k _ _ hv hm rfl rfl]
    have hb : (-1 : Int) ≤ (CYmemrchr s.rl_line_buffer '\n' s.rl_point.toNat).elim (-1 : Int)
          (fun b => (b : Int)) ∧
        (CYmemrchr s.rl_line_buffer '\n' s.rl_point.toNat).elim (-1 : Int) (fun b => (b : Int))
          < (s.rl_point.toNat : Int) := by
      cases hb : CYmemrchr s.rl_line_buffer '\n' s.rl_point.toNat with
      | none => simp
      | some b =>
        have := CYmemrchr_lt _ _ _ _ hb
        simp; omega
    have hnext : s.rl_point.toNat + k <
          (memchr (s.rl_line_buffer.drop (s.rl_point.toNat + k + 1)) '\n'
            (s.rl_line_buffer.length - (s.rl_point.toNat + k) - 1)).elim s.rl_line_buffer.length
            (fun j => s.rl_point.toNat + k + 1 + j) ∧
        (memchr (s.rl_line_buffer.drop (s.rl_point.toNat + k + 1)) '\n'
            (s.rl_line_buffer.length - (s.rl_point.toNat + k) - 1)).elim s.rl_line_buffer.length
            (fun j => s.rl_point.toNat + k + 1 + j) ≤ s.rl_line_buffer.length := by
      cases hj : memchr (s.rl_line_buffer.drop (s.rl_point.toNat + k + 1)) '\n'
          (s.rl_line_buffer.length - (s.rl_point.toNat + k) - 1) with
      | none => simp; omega
      | some j =>
        have := memchr_lt _ _ _ _ hj
        simp; omega
    split
    · simp only
      omega
    · simp only
      omega

/-- Claim C12: one Up from a logical line that is not the first, and one Down from a
logical line that is not the last, leave the buffer and the history as they were
(no retrieval) and move the point to the adjacent logical line at column
`min c len`, where `c` is the column of the point in its line and `len` the length
of the adjacent line; an Up or Down that does call the history retrieval started
with no newline in front of the point (Up) or none at or behind it (Down). -/
theorem CYConsoleKeyUp_Down_logical_lines (h : HistoryState) :
    (∀ (P A B1 B2 : List Char), (P = [] ∨ ∃ Q, P = Q ++ ['\n']) → '\n' ∉ A → '\n' ∉ B1 →
      CYConsoleKeyUp 1
          ⟨P ++ (A ++ '\n' :: (B1 ++ B2)),
            ((P.length + A.length + 1 + B1.length : Nat) : Int), h⟩
        = ⟨P ++ (A ++ '\n' :: (B1 ++ B2)),
            ((P.length + min B1.length A.length : Nat) : Int), h⟩) ∧
    (∀ (P B1 B2 N R : List Char), (P = [] ∨ ∃ Q, P = Q ++ ['\n']) → '\n' ∉ B1 → '\n' ∉ B2 →
      '\n' ∉ N → (R = [] ∨ ∃ T, R = '\n' :: T) →
      CYConsoleKeyDown 1
          ⟨P ++ (B1 ++ (B2 ++ '\n' :: (N ++ R))), ((P.length + B1.length : Nat) : Int), h⟩
        = ⟨P ++ (B1 ++ (B2 ++ '\n' :: (N ++ R))),
            ((P.length + B1.length + B2.length + 1 + min B1.length N.length : Nat) : Int),
            h⟩) ∧
    (∀ s : Navigation, (CYConsoleKeyUp 1 s).history.retrievals ≠ s.history.retrievals →
      '\n' ∉ s.rl_line_buffer.take s.rl_point.toNat) ∧
    (∀ s : Navigation, (CYConsoleKeyDown 1 s).history.retrievals ≠ s.history.retrievals →
      '\n' ∉ s.rl_line_buffer.drop s.rl_point.toNat) :=
  ⟨fun P A B1 B2 hP hA hB => CYConsoleKeyUp_moves P A B1 B2 h hP hA hB,
   fun P B1 B2 N R hP hB1 hB2 hN hR => CYConsoleKeyDown_moves P B1 B2 N R h hP hB1 hB2 hN hR,
   CYConsoleKeyUp_retrieval_first_line,
   CYConsoleKeyDown_retrieval_last_line⟩

/-- The navigation theorem on the three-line buffer `ab`, `cdef`, `g`: Up from
column 3 of `cdef` lands at the end of `ab`, Down from column 1 of `ab` lands on
column 1 of `cdef`. -/
theorem CYConsoleKeyUp_Down_logical_lines_witness :
    CYConsoleKeyUp 1
        ⟨[] ++ ("ab".toList ++ '\n' :: ("cde".toList ++ "f\ng".toList)),
          ((([] : List Char).length + "ab".toList.length + 1 + "cde".toList.length : Nat) : Int),
          ⟨[], 0, none, 0⟩⟩
      = ⟨[] ++ ("ab".toList ++ '\n' :: ("cde".toList ++ "f\ng".toList)),
          ((([] : List Char).length + min "cde".toList.length "ab".toList.length : Nat) : Int),
          ⟨[], 0, none, 0⟩⟩ ∧
    CYConsoleKeyDown 1
        ⟨[] ++ ("a".toList ++ ("b".toList ++ '\n' :: ("cdef".toList ++ "\ng".toList))),
          ((([] : List Char).length + "a".toList.length : Nat) : Int), ⟨[], 0, none, 0⟩⟩
      = ⟨[] ++ ("a".toList ++ ("b".toList ++ '\n' :: ("cdef".toList ++ "\ng".toList))),
          ((([] : List Char).length + "a".toList.length + "b".toList.length + 1
            + min "a".toList.length "cdef".toList.length : Nat) : Int), ⟨[], 0, none, 0⟩⟩ :=
  ⟨(CYConsoleKeyUp_Down_logical_lines ⟨[], 0, none, 0⟩).1 [] "ab".toList "cde".toList
      "f\ng".toList (Or.inl rfl) (by decide) (by decide),
   (CYConsoleKeyUp_Down_logical_lines ⟨[], 0, none, 0⟩).2.1 [] "a".toList "b".toList
      "cdef".toList "\ng".toList (Or.inl rfl) (by decide) (by decide) (by decide)
      (Or.inr ⟨"g".toList, rfl⟩)⟩

/-- Claim C16 fails on the code: with the point at the end of the one-line buffer
`a` and a next history entry that starts with a newline, one Down retrieves that
entry and leaves the point at -1, in front of the buffer. -/
theorem CYConsoleKeyDown_point_before_buffer :
    ((0 : Int) ≤ 1 ∧ (1 : Int) ≤ ("a".toList.length : Int)) ∧
    CYConsoleKeyDown 1 ⟨"a".toList, 1, ⟨["a".toList, "\nb".toList], 0, none, 0⟩⟩
      = ⟨"\nb".toList, -1, ⟨["a".toList, "\nb".toList], 1, none, 1⟩⟩ := by
  decide

/-! ## Input controller: Enter inside the buffer -/

theorem CYConsoleKeyReturn_space_spaces (p : Nat) (R : List Char) :
    ∀ (n s : Nat), s + n = p →
      CYConsoleKeyReturn.space p (List.replicate n ' ' ++ R) s = p := by
  intro n
  induction n with
  | zero =>
    intro s hs
    have hsp : s = p := by omega
    subst hsp
    cases R with
    | nil => rfl
    | cons c rest => simp [CYConsoleKeyReturn.space]
  | succ n ih =>
    intro s hs
    have hne : s ≠ p := by omega
    rw [List.replicate_succ, List.cons_append, CYConsoleKeyReturn.space]
    simp only [hne, ne_eq, not_false_eq_true, and_self, if_true]
    exact ih (s + 1) (by omega)

theorem rl_insert_newline_indent (Q R : List Char) (done : Bool) :
    rl_insert 1 '\n' ⟨Q ++ '\n' :: R, Q.length + 1, done⟩
      = ⟨Q ++ '\n' :: '\n' :: R, Q.length + 1 + 1, done⟩ := by
  have t1 : (Q ++ '\n' :: R).take (Q.length + 1) = Q ++ ['\n'] := by
    rw [List.take_append_eq_append_take]
    simp
  have t2 : (Q ++ '\n' :: R).drop (Q.length + 1) = R := by
    rw [List.drop_append_eq_append_drop]
    simp
  simp [rl_insert, t1, t2]

/-- Enter inside the buffer, behind a newline and `n ≥ 1` spaces: the run moves
behind the new newline. -/
theorem CYConsoleKeyReturn_indent_later_line (parse : List Char → CYDriver)
    (Q R : List Char) (n : Nat) (hn : 1 ≤ n) (hR : R ≠ []) (done : Bool) :
    CYConsoleKeyReturn parse 1
        ⟨Q ++ '\n' :: (List.replicate n ' ' ++ R), Q.length + 1 + n, done⟩
      = ⟨Q ++ '\n' :: '\n' :: (List.replicate n ' ' ++ R), Q.length + 1 + 1 + n, done⟩ := by
  have hlen : (Q ++ '\n' :: (List.replicate n ' ' ++ R)).length
      = Q.length + 1 + n + R.length := by
    simp only [List.length_append, List.length_cons, List.length_replicate]; omega
  have hRl : 0 < R.length := List.length_pos.mpr hR
  have hnotend : Q.length + 1 + n ≠ (Q ++ '\n' :: (List.replicate n ' ' ++ R)).length := by
    rw [hlen]; omega
  have hmulti : ¬ (memchr (Q ++ '\n' :: (List.replicate n ' ' ++ R)) '\n'
      (Q ++ '\n' :: (List.replicate n ' ' ++ R)).length = none) := by
    intro h
    have := (memchr_full _ '\n').1 h
    rw [List.count_eq_zero] at this
    exact this (by simp)
  have hm := CYmemrchr_after_spaces Q R n n (Nat.le_refl _)
  have hdrop : (Q ++ '\n' :: (List.replicate n ' ' ++ R)).drop (Q.length + 1)
      = List.replicate n ' ' ++ R := by
    rw [List.drop_append_eq_append_drop, List.drop_of_length_le (by omega)]
    simp
  have hspace := CYConsoleKeyReturn_space_spaces (Q.length + 1 + n) R n (Q.length + 1) rfl
  have hadj : ((Q.length + 1 + n : Nat) : Int) - 1 - ((Q.length : Nat) : Int) = (n : Int) := by
    push_cast; omega
  have hadj0 : ¬ ((n : Int) = 0) := by omega
  simp only [CYConsoleKeyReturn, Readline.rl_end, ne_eq, hnotend, not_false_eq_true, if_true,
    hmulti, if_false, hm, Option.getD_some, hdrop, hspace, hadj, hadj0, and_self]
  rw [rl_rubout_indent Q R n n hn (Nat.le_refl _) done]
  simp only [Nat.sub_self, List.replicate_zero, List.nil_append, Nat.add_zero]
  rw [rl_insert_newline_indent Q R done]
  have := rl_insert_indent (Q ++ ['\n']) R 0 n hn done
  simp only [List.replicate_zero, List.nil_append, List.append_assoc, List.singleton_append,
    List.length_append, List.length_cons, List.length_nil, Nat.add_zero, Nat.zero_add] at this
  rw [this]

/-- Claim C13 fails on the code: on the first logical line, with the point behind
two leading spaces of the buffer `  x`, newline, `y`, Enter leaves one space in
front of the new newline and puts one space behind it; the claim has both spaces
behind the newline.  The parser is not consulted. -/
theorem CYConsoleKeyReturn_first_line_indent (parse : List Char → CYDriver) :
    ("  x\ny".toList = [] ++ List.replicate 2 ' ' ++ "x\ny".toList) ∧
    CYConsoleKeyReturn parse 1 ⟨"  x\ny".toList, 2, false⟩ = ⟨" \n x\ny".toList, 3, false⟩ ∧
    " \n x\ny".toList ≠ [] ++ '\n' :: (List.replicate 2 ' ' ++ "x\ny".toList) := by
  refine ⟨rfl, rfl, by decide⟩

/-! ## Display engine: the column invariant -/

theorem cursorAfter_column (w : Int) (l : List Char) :
    ∀ (r c : Int), 0 ≤ c → c < w → (4 < w ∨ '\n' ∉ l) →
      0 ≤ (cursorAfter w l ⟨r, c⟩).imag ∧ (cursorAfter w l ⟨r, c⟩).imag < w := by
  induction l with
  | nil => intro r c h0 h1 _; exact ⟨h0, h1⟩
  | cons a t ih =>
    intro r c h0 h1 hw
    have hw2 : 4 < w ∨ '\n' ∉ t := by
      rcases hw with h | h
      · exact Or.inl h
      · exact Or.inr (fun hm => h (List.mem_cons_of_mem _ hm))
    simp only [cursorAfter, advance]
    by_cases ha : a = '\n'
    · rcases hw with h | h
      · simp only [ha, if_true]
        exact ih _ 4 (by omega) h hw2
      · exact absurd (by simp [ha]) h
    · simp only [ha, if_false]
      by_cases hwrap : c + 1 = w
      · simp only [hwrap, ne_eq, not_true_eq_false, if_false]
        exact ih _ 0 (le_refl _) (by omega) hw2
      · simp only [hwrap, ne_eq, not_false_eq_true, if_true]
        exact ih _ (c + 1) (by omega) (by omega) hw2

/-- Claim C14 as stated fails: at width 4, from column 0, a newline leaves
`current_` and the returned position at column 4, which is not below the width. -/
theorem CYDisplayOutput_newline_column :
    (0 : Int) ≤ (⟨⟨0, 0⟩, []⟩ : Display).current_.imag ∧
    (⟨⟨0, 0⟩, []⟩ : Display).current_.imag < 4 ∧
    (CYDisplayOutput readlineMarkers false 4 "\n".toList 1 ⟨⟨0, 0⟩, []⟩).2.current_.imag = 4 ∧
    (CYDisplayOutput readlineMarkers false 4 "\n".toList 1 ⟨⟨0, 0⟩, []⟩).1.imag = 4 := by
  rw [CYDisplayOutput_current, CYDisplayOutput_point]
  decide

/-- Claim C14, amended: for every width, stream and starting virtual cursor whose
column lies in `[0, width)`, provided the width is greater than 4 or the stream has
no visible newline, after `CYDisplayOutput` returns both `current_` and the returned
position have a column in `[0, width)`. -/
theorem CYDisplayOutput_column_invariant (m : IgnoreMarkers) (display : Bool) (width : Int)
    (data : List Char) (offset : Int) (d : Display)
    (h0 : 0 ≤ d.current_.imag) (h1 : d.current_.imag < width)
    (hw : 4 < width ∨ '\n' ∉ visibleBytes m data) :
    (0 ≤ (CYDisplayOutput m display width data offset d).2.current_.imag ∧
      (CYDisplayOutput m display width data offset d).2.current_.imag < width) ∧
    (0 ≤ (CYDisplayOutput m display width data offset d).1.imag ∧
      (CYDisplayOutput m display width data offset d).1.imag < width) := by
  rw [CYDisplayOutput_current, CYDisplayOutput_point]
  constructor
  · exact cursorAfter_column width _ d.current_.real d.current_.imag h0 h1 hw
  · split
    · refine cursorAfter_column width _ d.current_.real d.current_.imag h0 h1 ?_
      rcases hw with h | h
      · exact Or.inl h
      · exact Or.inr (fun hm => h (List.mem_of_mem_take hm))
    · exact ⟨h0, h1⟩

/-- The column invariant at width 5 on a two-line stream, offset 4. -/
theorem CYDisplayOutput_column_invariant_witness :
    ((0 : Int) ≤ (⟨⟨0, 0⟩, []⟩ : Display).current_.imag ∧
     (⟨⟨0, 0⟩, []⟩ : Display).current_.imag < 5 ∧
     ((4 : Int) < 5 ∨ '\n' ∉ visibleBytes readlineMarkers "ab\ncdefgh".toList)) ∧
    ((0 ≤ (CYDisplayOutput readlineMarkers true 5 "ab\ncdefgh".toList 4
          ⟨⟨0, 0⟩, []⟩).2.current_.imag ∧
      (CYDisplayOutput readlineMarkers true 5 "ab\ncdefgh".toList 4
          ⟨⟨0, 0⟩, []⟩).2.current_.imag < 5) ∧
     (0 ≤ (CYDisplayOutput readlineMarkers true 5 "ab\ncdefgh".toList 4 ⟨⟨0, 0⟩, []⟩).1.imag ∧
      (CYDisplayOutput readlineMarkers true 5 "ab\ncdefgh".toList 4 ⟨⟨0, 0⟩, []⟩).1.imag < 5)) :=
  ⟨by decide,
   CYDisplayOutput_column_invariant readlineMarkers true 5 "ab\ncdefgh".toList 4 ⟨⟨0, 0⟩, []⟩
     (by decide) (by decide) (Or.inl (by decide))⟩

/-! ## Batch mode: the exit code -/

/-- The batch branch returns 1 exactly when the parse was clean, code was generated
and run (no compile-only flag), and the result text begins with `throw `. -/
theorem Main_batch_exit_one (e : Endian) (CYExecute : List Byte → Option (List Byte))
    (client_ : Option Socket) (compile : Bool) (driver : CYDriver)
    (script_ : Option (List Byte)) :
    Main.batch e CYExecute client_ compile driver script_ = some 1 ↔
      driver.Parse = false ∧ driver.errors_ = [] ∧ compile = false ∧
      ∃ code r, script_ = some code ∧ Run e CYExecute client_ code = some r ∧
        CYStartsWith r.json throwText = true := by
  unfold Main.batch
  cases hp : driver.Parse <;> cases he : driver.errors_ <;> cases script_ <;> cases compile <;>
    simp
  rename_i code
  cases hr : Run e CYExecute client_ code with
  | none => simp
  | some r =>
    by_cases hs : CYStartsWith r.json throwText = true
    · simp [hs]
    · simp [hs]

/-- Claim C15 fails on the code: when the parser reports failure, with or without
diagnostics, and when it reports a diagnostic without failure, the batch branch of
`Main` returns 0. -/
theorem Main_batch_parse_error_exit_zero (e : Endian)
    (CYExecute : List Byte → Option (List Byte)) (client_ : Option Socket) (compile : Bool)
    (script_ : Option (List Byte)) :
    (∀ errors : List CYDriverError,
      Main.batch e CYExecute client_ compile ⟨true, errors⟩ script_ = some 0) ∧
    (∀ (error : CYDriverError) (rest : List CYDriverError),
      Main.batch e CYExecute client_ compile ⟨false, error :: rest⟩ script_ = some 0) := by
  constructor
  · intro errors; simp [Main.batch]
  · intro error rest; simp [Main.batch]

end Cycript
